import Mathlib

set_option maxHeartbeats 1000000

/-!
Verification development for the Kraken i18n translation-catalog engine.

The definitions below are shallow embeddings of the TypeScript sources:
JSON documents become the inductive `JValue`, JavaScript `Record`s become
association lists (`aget`/`aset` model property read / property write with
first-occurrence semantics), and the effectful batch-translation loop becomes
a pure recursion that records its writes, progress callbacks and provider
calls as traces.
-/

/-- JSON-like values as stored in the per-language translation files. -/
inductive JValue where
  | str (s : String)
  | obj (fields : List (String × JValue))
  | arr (elems : List JValue)
  | num (n : Int)
  | boolVal (b : Bool)
  | nullVal

/-- Association-list lookup: the first entry whose key matches, modelling a
JavaScript `Record` property read. -/
def aget {α : Type} (k : String) : List (String × α) → Option α
  | [] => none
  | (k', v) :: rest => if k' = k then some v else aget k rest

/-- Association-list update: replace the first entry with the given key, or
append a fresh entry, modelling a JavaScript `Record` property write. -/
def aset {α : Type} : List (String × α) → String → α → List (String × α)
  | [], k, v => [(k, v)]
  | (k', v') :: rest, k, v =>
    if k' = k then (k', v) :: rest else (k', v') :: aset rest k v

/-- JS `key.split('.')`, specialised to the literal dot separator. -/
def splitDotAux : List Char → List Char → List String
  | [], acc => [String.mk acc.reverse]
  | c :: rest, acc =>
    if c = '.' then String.mk acc.reverse :: splitDotAux rest []
    else splitDotAux rest (c :: acc)

/-- JS `key.split('.')`. -/
def splitDot (s : String) : List String := splitDotAux s.toList []

/-- Joins path segments with dots; inverse of `splitDot` on dot-free parts. -/
def joinDot : List String → String
  | [] => ""
  | [p] => p
  | p :: q :: rest => p ++ "." ++ joinDot (q :: rest)

/-- A string that contains no dot, i.e. a single path segment. -/
def dotFreeB (s : String) : Bool := s.toList.all (fun c => c != '.')

/-- The TS guard `next && typeof next === 'object' && !Array.isArray(next)`:
keeps a value exactly when it is a plain (non-array, non-null) object. -/
def isPlainObj : JValue → Bool
  | .obj _ => true
  | _ => false

/-- The TS guard `typeof parsed === 'object' && parsed !== null`, which is
satisfied by plain objects and by arrays. -/
def isObjLike : JValue → Bool
  | .obj _ => true
  | .arr _ => true
  | _ => false

/-- Property write on a JSON value; on non-objects the write has no effect on
the serialised document (JSON.stringify ignores extra properties). -/
def objSet (t : JValue) (k : String) (v : JValue) : JValue :=
  match t with
  | .obj fields => .obj (aset fields k v)
  | _ => t

/-- The intermediate node chosen by `setNestedValue`: the existing child when
it is a plain object, otherwise a fresh empty object. -/
def childForSet (t : JValue) (p : String) : JValue :=
  match t with
  | .obj fields =>
    match aget p fields with
    | some (JValue.obj fs) => JValue.obj fs
    | _ => JValue.obj []
  | _ => JValue.obj []

/-- Walk of `setNestedValue` over an explicit list of path segments. -/
def setParts : List String → JValue → String → JValue
  | [], t, _ => t
  | [p], t, v => objSet t p (.str v)
  | p :: q :: rest, t, v => objSet t p (setParts (q :: rest) (childForSet t p) v)

/-- `setNestedValue(target, key, value)` from the extension host: splits the
key on dots, walks/creates plain-object intermediates (replacing any
non-object or array node found along the path), and sets the leaf. -/
def setNestedValue (target : JValue) (key : String) (value : String) : JValue :=
  setParts (splitDot key) target value

/-- JS array indexing by a string property name: only the canonical decimal
representation of an index reaches an element. -/
def jsArrayIndex (p : String) : Option Nat :=
  match p.toNat? with
  | some i => if toString i = p then some i else none
  | none => none

/-- Walk of `getNestedValue` over an explicit list of path segments. -/
def getParts : List String → JValue → Option JValue
  | [], t => some t
  | p :: rest, t =>
    match t with
    | .obj fields =>
      match aget p fields with
      | some next => getParts rest next
      | none => none
    | .arr elems =>
      match jsArrayIndex p with
      | some i =>
        match elems[i]? with
        | some next => getParts rest next
        | none => none
      | none => none
    | _ => none

/-- `getNestedValue(target, key)` from the extension host: read-only walk of
the dot-path, `undefined` (modelled as `none`) on any missing or non-object
intermediate. -/
def getNestedValue (target : JValue) (key : String) : Option JValue :=
  getParts (splitDot key) target

/-- `Object.entries` of a JS array: canonical index strings paired with the
elements, in order. -/
def enumElems (elems : List JValue) : List (String × JValue) :=
  (List.range elems.length).zip elems |>.map (fun p => (toString p.1, p.2))

mutual
/-- Recursion shim of `flattenObject` for nested plain objects (the only
values the TS guard lets the recursion reach). -/
def flattenValue : JValue → String → List (String × String) → List (String × String)
  | .obj fields, pre, out => flattenFields fields pre out
  | _, _, out => out
termination_by structural v => v

/-- The field loop of `flattenObject`: walks the entries accumulating
`fullKey -> string` pairs into `out` (a JS `Record`, so an existing key is
overwritten in place); string leaves are recorded, plain nested objects are
recursed into, arrays and all other leaf types are dropped. -/
def flattenFields : List (String × JValue) → String → List (String × String) →
    List (String × String)
  | [], _, out => out
  | (k, entry) :: rest, pre, out =>
    let fullKey := if pre = "" then k else pre ++ "." ++ k
    let out' :=
      match entry with
      | .str s => aset out fullKey s
      | .obj _ => flattenValue entry fullKey out
      | _ => out
    flattenFields rest pre out'
termination_by structural l => l
end

/-- `flattenObject(value, prefix, out)` from the extension host. A top-level
array is enumerated like an object (`Object.entries`), matching the TS
`typeof value !== 'object'` guard; any other non-object top level
contributes nothing. -/
def flattenObject (value : JValue) (pre : String) (out : List (String × String)) :
    List (String × String) :=
  match value with
  | .obj fields => flattenFields fields pre out
  | .arr elems => flattenFields (enumElems elems) pre out
  | _ => out

/-- A language directory: one entry per `<code>.json` file, carrying the
parsed JSON document of that file. -/
abbrev FileStore := List (String × JValue)

/-- `readJsonFile` applied to a file of the store: a missing file yields an
empty object, and a parsed top-level value that is not `typeof 'object'`
(or is null) is replaced by an empty object. -/
def readStoredJson (fs : FileStore) (code : String) : JValue :=
  match aget code fs with
  | none => JValue.obj []
  | some v => if isObjLike v then v else JValue.obj []

/-- `writeJsonFile`: (re)writes one language file of the store. -/
def writeStoredJson (fs : FileStore) (code : String) (v : JValue) : FileStore :=
  aset fs code v

/-- `updateTranslationValue(langCode, key, value)`: read-modify-write of one
language file through `setNestedValue`. -/
def updateTranslationValue (fs : FileStore) (langCode key value : String) : FileStore :=
  writeStoredJson fs langCode (setNestedValue (readStoredJson fs langCode) key value)

/-- The target codes of `addTranslationKey`: every existing language file,
plus the source language if no file for it exists. -/
def addKeyTargetCodes (fs : FileStore) (sourceLang : String) : List String :=
  let codes := fs.map Prod.fst
  if sourceLang ∈ codes then codes else codes ++ [sourceLang]

/-- The body of the per-code loop of `addTranslationKey`: read the file,
write the key if and only if `getNestedValue` finds nothing at its dot-path
(seeding the source language with the value and the rest with `""`). -/
def addKeyStep (key sourceLang value : String) (acc : FileStore) (code : String) : FileStore :=
  let json := readStoredJson acc code
  if (getNestedValue json key).isNone then
    writeStoredJson acc code (setNestedValue json key (if code = sourceLang then value else ""))
  else acc

/-- `addTranslationKey(key, sourceLang, value)`: the per-code write loop over
every existing language file, plus the source language file if absent. -/
def addTranslationKey (fs : FileStore) (key sourceLang value : String) : FileStore :=
  (addKeyTargetCodes fs sourceLang).foldl (addKeyStep key sourceLang value) fs

/-- The per-file outcome `addTranslationKey` produces, phrased against the
pre-state: write the key iff it is absent from that file, else leave the file
alone. -/
def addKeyFileResult (fs : FileStore) (key sourceLang value : String) (code : String) : JValue :=
  let json := readStoredJson fs code
  if (getNestedValue json key).isNone then
    setNestedValue json key (if code = sourceLang then value else "")
  else json

/-- BOM character `﻿`. -/
def bomChar : Char := Char.ofNat 0xFEFF

/-- The `raw.replace(/^﻿/, '')` step of `readJsonFile`: drops one
leading byte-order mark. -/
def stripBom (s : String) : String :=
  match s.data with
  | c :: rest => if c = bomChar then String.mk rest else s
  | [] => s

/-- `readJsonFile(filePath)`, with the file system and `JSON.parse` as
parameters: `exists` says whether the file is present, `raw` is its text and
`parse` is the JSON parser (`none` models a parse exception). A missing file,
a parse failure, and a non-object top-level value all yield an empty object;
parsing always happens on the BOM-stripped text. -/
def readJsonFile (fileExists : Bool) (raw : String) (parse : String → Option JValue) : JValue :=
  if fileExists = false then JValue.obj []
  else
    match parse (stripBom raw) with
    | none => JValue.obj []
    | some parsed => if isObjLike parsed then parsed else JValue.obj []

/-- The ten-entry popularity list of `compareLanguageCodes`. -/
def POPULAR_LANGUAGE_ORDER : List String :=
  ["en", "es", "pt", "fr", "de", "it", "ja", "zh", "ru", "ko"]

/-- JS `String.prototype.toLowerCase`, character by character. -/
def jsToLower (s : String) : String := String.mk (s.toList.map Char.toLower)

/-- JS `String.prototype.startsWith`. -/
def jsStartsWith (s p : String) : Bool := p.toList.isPrefixOf s.toList

/-- `normalizeLanguageCode`: lower-case; `zn` and `zh*` collapse to `zh`,
`pt*` collapses to `pt`. -/
def normalizeLanguageCode (code : String) : String :=
  let lower := jsToLower code
  if lower = "zn" ∨ jsStartsWith lower "zh" then "zh"
  else if jsStartsWith lower "pt" then "pt"
  else lower

/-- JS `Array.prototype.indexOf`: index of the first occurrence, `-1` when
absent. -/
def jsIndexOf : List String → String → Int
  | [], _ => -1
  | x :: rest, y =>
    if x = y then 0
    else
      match jsIndexOf rest y with
      | -1 => -1
      | i => i + 1

/-- Lexicographic strict comparison of char lists by code point. -/
def charsLt : List Char → List Char → Bool
  | [], [] => false
  | [], _ :: _ => true
  | _ :: _, [] => false
  | a :: as1, b :: bs1 =>
    if a.toNat < b.toNat then true
    else if b.toNat < a.toNat then false
    else charsLt as1 bs1

/-- Lexicographic strict comparison of strings by code point. -/
def strLt (a b : String) : Bool := charsLt a.toList b.toList

/-- The sign model of JS `String.prototype.localeCompare` used by the
comparator: `-1`, `0` or `1` by lexicographic string comparison. -/
def localeCompare (a b : String) : Int :=
  if strLt a b then -1 else if strLt b a then 1 else 0

/-- `compareLanguageCodes(a, b)` from the extension host. -/
def compareLanguageCodes (a b : String) : Int :=
  let aKey := normalizeLanguageCode a
  let bKey := normalizeLanguageCode b
  let aRank := jsIndexOf POPULAR_LANGUAGE_ORDER aKey
  let bRank := jsIndexOf POPULAR_LANGUAGE_ORDER bKey
  if aRank ≠ -1 ∧ bRank ≠ -1 then
    if aRank ≠ bRank then aRank - bRank else localeCompare a b
  else if aRank ≠ -1 then -1
  else if bRank ≠ -1 then 1
  else if aKey ≠ bKey then localeCompare aKey bKey
  else localeCompare a b

/-- The popularity rank used by `compareLanguageCodes`: `indexOf` of the
normalized code in the popularity list (`-1` when absent). -/
def langRank (a : String) : Int :=
  jsIndexOf POPULAR_LANGUAGE_ORDER (normalizeLanguageCode a)

/-- Stable insertion of one element by a numeric comparator. -/
def insertByCmp (cmp : String → String → Int) (x : String) : List String → List String
  | [] => [x]
  | y :: rest => if cmp x y ≤ 0 then x :: y :: rest else y :: insertByCmp cmp x rest

/-- JS stable `Array.prototype.sort` with a numeric comparator, modelled as a
stable insertion sort. -/
def sortByCmp (cmp : String → String → Int) : List String → List String
  | [] => []
  | x :: rest => insertByCmp cmp x (sortByCmp cmp rest)

/-- JS `Set` insertion: skip elements already seen. -/
def dedupAux (seen : List String) : List String → List String
  | [] => []
  | x :: rest => if x ∈ seen then dedupAux seen rest else x :: dedupAux (x :: seen) rest

/-- JS `Set` insertion order: first occurrences, in order. -/
def dedup (l : List String) : List String := dedupAux [] l

/-- A language of the registry: code and display name (flag omitted — it is
always empty in the host). -/
structure LanguageInfo where
  code : String
  name : String
deriving DecidableEq

/-- A translation key: the id is the dot-path, `key` the display key. -/
structure TranslationKey where
  id : String
  key : String
deriving DecidableEq

/-- The in-memory value table of the webview: key id to language code to
string, modelled with JS `Record` lookup semantics. -/
abbrev ValueTable := String → Option (String → Option String)

/-- `values[keyId]?.[code] || ''` / `?? ''`: the cell of the table, empty
string when the key or the language entry is absent. -/
def cellValue (values : ValueTable) (keyId code : String) : String :=
  ((values keyId).bind (fun row => row code)).getD ""

/-- JS `a || b` on strings: `b` when `a` is the empty string. -/
def jsOrElse (a b : String) : String := if a = "" then b else a

/-- JS `String.prototype.trim`: strips leading and trailing whitespace. -/
def jsTrim (s : String) : String :=
  String.mk ((s.toList.dropWhile Char.isWhitespace).reverse.dropWhile Char.isWhitespace).reverse

/-- One unit of batch-translation work, as built by
`collectTranslateAllJobs`. -/
structure TranslateAllJob where
  keyId : String
  keyName : String
  sourceText : String
  targetLangCode : String
  targetLangName : String
  sourceLangName : String
deriving DecidableEq

/-- The body of the outer key loop of `collectTranslateAllJobs`: `continue`
when the source text is blank, otherwise the inner loop over the targets,
skipping targets whose current value is non-blank. -/
def collectForKey (values : ValueTable) (sourceLangCode sourceLangName : String)
    (targets : List LanguageInfo) (key : TranslationKey) : List TranslateAllJob :=
  let sourceText := cellValue values key.id sourceLangCode
  if jsTrim sourceText = "" then []
  else
    targets.filterMap (fun target =>
      let existing := cellValue values key.id target.code
      if jsTrim existing ≠ "" then none
      else some
        { keyId := key.id
          keyName := key.key
          sourceText := sourceText
          targetLangCode := target.code
          targetLangName := jsOrElse target.name target.code
          sourceLangName := sourceLangName })

/-- `collectTranslateAllJobs(keys, values, languages, sourceLangCode)`: for
every key whose source-language text is non-blank, one job per language other
than the source whose current value is blank; outer loop in key order, inner
loop in language order. -/
def collectTranslateAllJobs (keys : List TranslationKey) (values : ValueTable)
    (languages : List LanguageInfo) (sourceLangCode : String) : List TranslateAllJob :=
  let sourceLang := languages.find? (fun lang => lang.code = sourceLangCode)
  let sourceLangName := jsOrElse (match sourceLang with | some l => l.name | none => "") sourceLangCode
  let targets := languages.filter (fun lang => lang.code ≠ sourceLangCode)
  if targets.isEmpty then []
  else keys.flatMap (collectForKey values sourceLangCode sourceLangName targets)

/-- Trace of one `handleTranslateAll` run: overall success flag, the
`handleSave` writes `(keyId, langCode, translated)` applied in order, the
`onProgress(done, total)` invocations in order, and the jobs for which the
provider was actually called, in order. -/
structure TranslateAllOutcome where
  ok : Bool
  errorKey : Option String
  writes : List (String × String × String)
  progress : List (Nat × Nat)
  attempted : List TranslateAllJob

/-- The sequential job loop of `handleTranslateAll`: the provider models
`translateText` (`Except.error` is a thrown exception). Each iteration calls
the provider, on success records the `handleSave` write, and — success or
failure (`finally`) — reports progress with the incremented done count; a
failure aborts the loop immediately with the translation-failed error. -/
def runTranslateAllJobs (provider : TranslateAllJob → Except Unit String) (total : Nat) :
    Nat → List TranslateAllJob → TranslateAllOutcome
  | _, [] => ⟨true, none, [], [], []⟩
  | done, job :: rest =>
    match provider job with
    | Except.ok translated =>
      let o := runTranslateAllJobs provider total (done + 1) rest
      ⟨o.ok, o.errorKey, (job.keyId, job.targetLangCode, translated) :: o.writes,
        (done + 1, total) :: o.progress, job :: o.attempted⟩
    | Except.error _ =>
      ⟨false, some "errors.translationFailed", [], [(done + 1, total)], [job]⟩

/-- `handleTranslateAll`: fails fast without an API key, reports
`translateAll.noMissing` when no job is pending, and otherwise runs the job
list sequentially starting from `onProgress(0, total)`. -/
def handleTranslateAll (openAiApiKey : String) (keys : List TranslationKey)
    (values : ValueTable) (languages : List LanguageInfo) (sourceLangCode : String)
    (provider : TranslateAllJob → Except Unit String) : TranslateAllOutcome :=
  if openAiApiKey = "" then ⟨false, some "errors.openAiKeyMissing", [], [], []⟩
  else
    let jobs := collectTranslateAllJobs keys values languages sourceLangCode
    if jobs.isEmpty then ⟨false, some "translateAll.noMissing", [], [], []⟩
    else
      let o := runTranslateAllJobs provider jobs.length 0 jobs
      ⟨o.ok, o.errorKey, o.writes, (0, jobs.length) :: o.progress, o.attempted⟩

/-- `OPENAI_PRICING_PER_MILLION`: the static per-million-token price table,
with prices as exact rationals. -/
def OPENAI_PRICING_PER_MILLION : List (String × (ℚ × ℚ)) :=
  [("gpt-4o-mini", (15/100, 6/10)),
   ("gpt-4o", (5, 15)),
   ("gpt-4.1-mini", (3/10, 12/10)),
   ("gpt-4.1", (5, 15))]

/-- `estimateOpenAiCost(promptTokens, completionTokens, model)`: `none` when
the model is not in the price table, otherwise the linear per-million-token
cost. -/
def estimateOpenAiCost (promptTokens completionTokens : ℚ) (model : String) : Option ℚ :=
  match aget model OPENAI_PRICING_PER_MILLION with
  | none => none
  | some pricing =>
    some (promptTokens / 1000000 * pricing.1 + completionTokens / 1000000 * pricing.2)

/-- `DEFAULT_OPENAI_MODEL` from the translation service (also the default of
the `polyglotManager.openaiModel` setting). -/
def DEFAULT_OPENAI_MODEL : String := "gpt-5-nano-2025-08-07"

/-- The language codes discovered by `readI18nData`: the base names of the
JSON files, sorted by `compareLanguageCodes`. -/
def readLanguageCodes (files : FileStore) : List String :=
  sortByCmp compareLanguageCodes (files.map Prod.fst)

/-- The `perLangValues` record of `readI18nData`: each discovered code mapped
to the flattening of its file. -/
def readPerLangValues (files : FileStore) : List (String × List (String × String)) :=
  (readLanguageCodes files).map (fun code => (code, flattenObject (readStoredJson files code) "" []))

/-- The sorted union key list of `readI18nData`: every flattened key of every
file, first occurrences kept (JS `Set`), sorted by `localeCompare`. -/
def readKeyList (files : FileStore) : List String :=
  sortByCmp localeCompare
    (dedup ((readLanguageCodes files).flatMap
      (fun code => (flattenObject (readStoredJson files code) "" []).map Prod.fst)))

/-- The dense value table assembled by `readI18nData`:
`values[key][code] = perLangValues[code]?.[key] ?? ''`. -/
def readValuesTable (files : FileStore) : List (String × List (String × String)) :=
  (readKeyList files).map (fun key =>
    (key, (readLanguageCodes files).map (fun code =>
      (code, (aget key ((aget code (readPerLangValues files)).getD [])).getD ""))))

mutual
/-- Canonical translation trees: string leaves and plain objects whose field
names are dot-free and duplicate-free. Every tree built by `setNestedValue`
from dot-split paths is canonical. -/
def canonV : JValue → Bool
  | .str _ => true
  | .obj fields => canonFields fields
  | _ => false
termination_by structural v => v

/-- Field-list side of `canonV`. -/
def canonFields : List (String × JValue) → Bool
  | [] => true
  | (k, v) :: rest =>
    dotFreeB k && rest.all (fun kv => kv.1 ≠ k) && canonV v && canonFields rest
termination_by structural l => l
end

mutual
/-- Accumulator-free flattening used to reason about `flattenObject`: the
emitted `(dotPath, value)` pairs of a tree, in emission order. -/
def flatV : JValue → List (String × String)
  | .obj fields => flatFields fields
  | _ => []
termination_by structural v => v

/-- Field-list side of `flatV`. -/
def flatFields : List (String × JValue) → List (String × String)
  | [] => []
  | (k, entry) :: rest =>
    (match entry with
     | .str s => [(k, s)]
     | .obj _ => (flatV entry).map (fun p => (k ++ "." ++ p.1, p.2))
     | _ => []) ++ flatFields rest
termination_by structural l => l
end

/-- The nested tree built from a flat map by applying `setNestedValue` for
each entry in order to an empty object (the inverse direction of
`flattenObject`, as exercised by the round-trip property). -/
def unflatten (m : List (String × String)) : JValue :=
  m.foldl (fun t entry => setNestedValue t entry.1 entry.2) (JValue.obj [])

/-- Reads one cell of the value table assembled by `readI18nData`. -/
def tableCell (table : List (String × List (String × String))) (key code : String) :
    Option String :=
  (aget key table).bind (fun row => aget code row)

/-- `getParts` restricted to string leaves: the value the flattening of a
tree associates with a dot-path. -/
def getStrAt (t : JValue) (parts : List String) : Option String :=
  match getParts parts t with
  | some (JValue.str v) => some v
  | _ => none

/-- Spec-side per-key contract of `collectJobs`: the `(keyId, langCode)`
pairs of the targets whose job must be emitted for one key. -/
def specPairsForKey (values : ValueTable) (sourceLangCode : String)
    (targets : List LanguageInfo) (key : TranslationKey) : List (String × String) :=
  (targets.filter (fun lang =>
      jsTrim (cellValue values key.id sourceLangCode) ≠ "" ∧
      jsTrim (cellValue values key.id lang.code) = "")).map (fun lang => (key.id, lang.code))

/-- Spec-side restatement of the job-discovery contract of `collectJobs`:
for every key (in catalog key order) with non-blank source-language text, one
`(keyId, targetLangCode)` pair per active language other than the source (in
registry order) whose current value is blank. -/
def specJobPairs (keys : List TranslationKey) (values : ValueTable)
    (languages : List LanguageInfo) (sourceLangCode : String) : List (String × String) :=
  keys.flatMap
    (specPairsForKey values sourceLangCode
      (languages.filter (fun lang => lang.code ≠ sourceLangCode)))

/-- The `fullKey` computation of `flattenObject`: the bare field name at the
root, the dot-joined path below it. -/
def jKey (pre k : String) : String :=
  if pre = "" then k else pre ++ "." ++ k

/-! ### Theorems -/

/-- C10: the default model identifier `gpt-5-nano-2025-08-07` is not a key of
the static pricing table, so for every token count pair the pre-flight cost
estimate `estimateOpenAiCost` returns `none` (the "unknown" outcome) under
default settings. -/
theorem default_model_cost_unknown :
    aget DEFAULT_OPENAI_MODEL OPENAI_PRICING_PER_MILLION = none ∧
    ∀ promptTokens completionTokens : ℚ,
      estimateOpenAiCost promptTokens completionTokens DEFAULT_OPENAI_MODEL = none := by
  refine ⟨rfl, fun pt ct => ?_⟩
  simp [estimateOpenAiCost, DEFAULT_OPENAI_MODEL, OPENAI_PRICING_PER_MILLION, aget]

/-- C8: `estimateOpenAiCost` returns `none` exactly when the model is not a
key of the static price table; otherwise it returns the linear
per-million-token cost `pt/1e6 * promptPrice + ct/1e6 * completionPrice`;
and for a known model at zero tokens the result is the non-negative number
`0`. -/
theorem estimateOpenAiCost_spec :
    (∀ (pt ct : ℚ) (model : String),
        estimateOpenAiCost pt ct model = none ↔ aget model OPENAI_PRICING_PER_MILLION = none) ∧
    (∀ (pt ct : ℚ) (model : String) (pricing : ℚ × ℚ),
        aget model OPENAI_PRICING_PER_MILLION = some pricing →
        estimateOpenAiCost pt ct model
          = some (pt / 1000000 * pricing.1 + ct / 1000000 * pricing.2)) ∧
    (estimateOpenAiCost 0 0 "gpt-4o" = some 0 ∧ (0:ℚ) ≤ 0) := by
  refine ⟨fun pt ct model => ?_, fun pt ct model pricing h => ?_, ?_, le_refl 0⟩
  · unfold estimateOpenAiCost
    cases aget model OPENAI_PRICING_PER_MILLION <;> simp
  · unfold estimateOpenAiCost
    rw [h]
  · simp [estimateOpenAiCost, aget, OPENAI_PRICING_PER_MILLION]

/-- Witness for C8: a known model priced at `(5, 15)` yields the linear cost
at concrete token counts. -/
theorem estimateOpenAiCost_spec_witness :
    estimateOpenAiCost 3 7 "gpt-4o" = some (3 / 1000000 * 5 + 7 / 1000000 * 15) :=
  estimateOpenAiCost_spec.2.1 3 7 "gpt-4o" (5, 15)
    (by simp [aget, OPENAI_PRICING_PER_MILLION])

/-- C7: `readJsonFile` never propagates a failure: a missing file yields an
empty object; a leading byte-order mark is stripped before parsing; and on a
parse failure, or when the parsed top-level value is not an object (or is
null), the result is an empty object rather than an error. -/
theorem readJsonFile_recovery :
    (∀ raw parse, readJsonFile false raw parse = JValue.obj []) ∧
    (∀ (rest : List Char), stripBom (String.mk (bomChar :: rest)) = String.mk rest) ∧
    (∀ s : String, s.data.head? ≠ some bomChar → stripBom s = s) ∧
    (∀ raw parse, parse (stripBom raw) = none → readJsonFile true raw parse = JValue.obj []) ∧
    (∀ raw parse v, parse (stripBom raw) = some v → isObjLike v = false →
        readJsonFile true raw parse = JValue.obj []) ∧
    (∀ raw parse v, parse (stripBom raw) = some v → isObjLike v = true →
        readJsonFile true raw parse = v) := by
  refine ⟨fun raw parse => rfl, fun rest => by simp [stripBom], fun s h => ?_,
    fun raw parse h => by simp [readJsonFile, h], fun raw parse v h hv => ?_,
    fun raw parse v h hv => ?_⟩
  · unfold stripBom
    cases hd : s.data with
    | nil => rfl
    | cons c rest =>
      simp only []
      rw [if_neg]
      intro hc
      exact h (by rw [hd, hc]; rfl)
  · simp [readJsonFile, h, hv]
  · simp [readJsonFile, h, hv]

/-- Witness for C7: a corrupt file, a non-object top level and a BOM-headed
file all yield the empty object. -/
theorem readJsonFile_recovery_witness :
    readJsonFile true "not json" (fun _ => none) = JValue.obj [] ∧
    readJsonFile true "3" (fun s => if s = "3" then some (JValue.num 3) else none)
      = JValue.obj [] ∧
    stripBom (String.mk (bomChar :: "{}".data)) = "{}" :=
  ⟨readJsonFile_recovery.2.2.2.1 "not json" (fun _ => none) rfl,
   readJsonFile_recovery.2.2.2.2.1 "3" (fun s => if s = "3" then some (JValue.num 3) else none)
     (JValue.num 3) rfl rfl,
   readJsonFile_recovery.2.1 "{}".data⟩


/-- Per-key projection lemma: the inner loop of `collectTranslateAllJobs`
emits, in order, exactly the `(keyId, langCode)` pairs demanded by the spec
contract `specPairsForKey`. -/
theorem collectForKey_pairs (values : ValueTable) (src name : String)
    (targets : List LanguageInfo) (key : TranslationKey) :
    (collectForKey values src name targets key).map (fun j => (j.keyId, j.targetLangCode))
      = specPairsForKey values src targets key := by
  unfold collectForKey specPairsForKey
  by_cases hs : jsTrim (cellValue values key.id src) = ""
  · rw [if_pos hs, List.map_nil]
    symm
    rw [List.map_eq_nil_iff, List.filter_eq_nil_iff]
    intro lang _
    simp [hs]
  · rw [if_neg hs]
    induction targets with
    | nil => rfl
    | cons t ts ih =>
      rw [List.filter_cons]
      by_cases he : jsTrim (cellValue values key.id t.code) = ""
      · rw [List.filterMap_cons_some (by rw [if_neg (not_not_intro he)]),
          List.map_cons, if_pos (by simp [hs, he] : _ = true), List.map_cons, ih]
      · rw [List.filterMap_cons_none (by rw [if_pos he]),
          if_neg (by simp [he]), ih]

/-- C1: `collectTranslateAllJobs` emits exactly one job per (key, target
language) pair whose source value is non-blank and whose target value is
blank, in outer key order and inner language order (the `specJobPairs`
contract); on the one-key `en`-only catalog with active `[en, fr, de]` it
returns exactly `(a, fr)` then `(a, de)`; and it returns `[]` whenever every
active non-source language already has non-blank text for every key with
non-blank source text. -/
theorem collectTranslateAllJobs_spec :
    (∀ (keys : List TranslationKey) (values : ValueTable) (languages : List LanguageInfo)
        (src : String),
        (collectTranslateAllJobs keys values languages src).map
            (fun j => (j.keyId, j.targetLangCode))
          = specJobPairs keys values languages src) ∧
    (collectTranslateAllJobs [⟨"a", "a"⟩]
        (fun kid => if kid = "a" then some (fun c => if c = "en" then some "Hello" else none)
          else none)
        [⟨"en", "English"⟩, ⟨"fr", "French"⟩, ⟨"de", "German"⟩] "en"
      = [⟨"a", "a", "Hello", "fr", "French", "English"⟩,
         ⟨"a", "a", "Hello", "de", "German", "English"⟩]) ∧
    (∀ (keys : List TranslationKey) (values : ValueTable) (languages : List LanguageInfo)
        (src : String),
        (∀ key ∈ keys, ∀ lang ∈ languages, lang.code ≠ src →
            jsTrim (cellValue values key.id src) ≠ "" →
            jsTrim (cellValue values key.id lang.code) ≠ "") →
        collectTranslateAllJobs keys values languages src = []) := by
  refine ⟨fun keys values languages src => ?_, by decide,
    fun keys values languages src hcov => ?_⟩
  · unfold collectTranslateAllJobs specJobPairs
    by_cases ht : (languages.filter (fun lang => lang.code ≠ src)).isEmpty = true
    · rw [if_pos ht, List.map_nil]
      have ht' : languages.filter (fun lang => lang.code ≠ src) = [] :=
        List.isEmpty_iff.mp ht
      rw [ht']
      symm
      rw [List.flatMap_eq_nil_iff]
      intro key _
      rfl
    · rw [if_neg ht, List.map_flatMap]
      exact congrArg (List.flatMap keys) (funext fun key => collectForKey_pairs values src _ _ key)
  · unfold collectTranslateAllJobs
    by_cases ht : (languages.filter (fun lang => lang.code ≠ src)).isEmpty = true
    · rw [if_pos ht]
    · rw [if_neg ht]
      rw [List.flatMap_eq_nil_iff]
      intro key hkey
      unfold collectForKey
      by_cases hs : jsTrim (cellValue values key.id src) = ""
      · rw [if_pos hs]
      · rw [if_neg hs]
        rw [List.filterMap_eq_nil_iff]
        intro lang hlang
        rw [List.mem_filter] at hlang
        have hne : lang.code ≠ src := by simpa using hlang.2
        exact if_pos (hcov key hkey lang hlang.1 hne hs)

/-- Witness for C1: a fully covered catalog (every non-source language
non-blank) yields zero jobs. -/
theorem collectTranslateAllJobs_spec_witness :
    collectTranslateAllJobs [⟨"a", "a"⟩]
      (fun kid => if kid = "a" then some
          (fun c => if c = "en" then some "Hello" else if c = "fr" then some "Bonjour" else none)
        else none)
      [⟨"en", "English"⟩, ⟨"fr", "French"⟩] "en" = [] :=
  collectTranslateAllJobs_spec.2.2 _ _ _ _ (by decide)

/-- Shifting the per-job progress reports by one position. -/
theorem progress_shift (done total n : Nat) :
    (done + 1, total) :: (List.range n).map (fun i => (done + 1 + i + 1, total))
      = (List.range (n + 1)).map (fun i => (done + i + 1, total)) := by
  rw [List.range_succ_eq_map, List.map_cons, List.map_map]
  refine congrArg₂ _ (by simp) ?_
  refine List.map_congr_left fun i _ => ?_
  have h : done + 1 + i + 1 = done + Nat.succ i + 1 := by omega
  simp [Function.comp_def, h]

/-- Loop lemma for C2: when every job before `j` succeeds and `j` fails, the
sequential loop performs exactly the writes of the successful jobs, calls the
provider only on them and on `j`, reports progress after every processed job
(including the failing one), and stops with the translation-failed error. -/
theorem runTranslateAllJobs_fail (provider : TranslateAllJob → Except Unit String)
    (total : Nat) (f : TranslateAllJob → String)
    (pre : List TranslateAllJob) (j : TranslateAllJob) (post : List TranslateAllJob)
    (hok : ∀ x ∈ pre, provider x = Except.ok (f x))
    (hfail : provider j = Except.error ()) :
    ∀ done : Nat, runTranslateAllJobs provider total done (pre ++ j :: post)
      = ⟨false, some "errors.translationFailed",
         pre.map (fun x => (x.keyId, x.targetLangCode, f x)),
         (List.range (pre.length + 1)).map (fun i => (done + i + 1, total)),
         pre ++ [j]⟩ := by
  induction pre with
  | nil =>
    intro done
    simp [runTranslateAllJobs, hfail, List.range_succ]
  | cons x rest ih =>
    intro done
    have hx := hok x (by simp)
    simp only [List.cons_append, runTranslateAllJobs, hx, List.append_eq]
    rw [ih (fun y hy => hok y (by simp [hy])) (done + 1)]
    simp only [TranslateAllOutcome.mk.injEq, true_and, and_true, List.map_cons,
      List.cons_append, List.length_cons, and_self]
    exact progress_shift done total (rest.length + 1)

/-- C2: `handleTranslateAll` processes its job list strictly in order and
aborts on the first failing provider call: the writes of the earlier
successful jobs remain recorded (no rollback), no later job is ever
attempted, the run returns the translation-failed error, and the progress
callback is invoked after every processed job — including the failing one —
with the updated done count and the total. -/
theorem handleTranslateAll_abort (apiKey : String) (keys : List TranslationKey)
    (values : ValueTable) (languages : List LanguageInfo) (src : String)
    (provider : TranslateAllJob → Except Unit String) (f : TranslateAllJob → String)
    (pre : List TranslateAllJob) (j : TranslateAllJob) (post : List TranslateAllJob)
    (hkey : apiKey ≠ "")
    (hjobs : collectTranslateAllJobs keys values languages src = pre ++ j :: post)
    (hok : ∀ x ∈ pre, provider x = Except.ok (f x))
    (hfail : provider j = Except.error ()) :
    handleTranslateAll apiKey keys values languages src provider
      = ⟨false, some "errors.translationFailed",
         pre.map (fun x => (x.keyId, x.targetLangCode, f x)),
         (0, pre.length + 1 + post.length) ::
           (List.range (pre.length + 1)).map
             (fun i => (i + 1, pre.length + 1 + post.length)),
         pre ++ [j]⟩ := by
  unfold handleTranslateAll
  rw [if_neg hkey, hjobs, if_neg (by simp),
    runTranslateAllJobs_fail provider _ f pre j post hok hfail 0]
  have hlen : (pre ++ j :: post).length = pre.length + 1 + post.length := by
    simp
    omega
  simp only [TranslateAllOutcome.mk.injEq, hlen, true_and, and_true, and_self]
  refine congrArg₂ _ rfl (List.map_congr_left fun i _ => ?_)
  have h : 0 + i + 1 = i + 1 := by omega
  rw [h]

/-- Witness for C2: a 3-job run whose 2nd provider call fails keeps job 1's
write, never attempts job 3, reports progress `(0,3),(1,3),(2,3)` and returns
the translation-failed error. -/
theorem handleTranslateAll_abort_witness :
    handleTranslateAll "key" [⟨"a", "a"⟩]
      (fun kid => if kid = "a" then some (fun c => if c = "en" then some "Hello" else none)
        else none)
      [⟨"en", "English"⟩, ⟨"fr", "French"⟩, ⟨"de", "German"⟩, ⟨"it", "Italian"⟩] "en"
      (fun job => if job.targetLangCode = "de" then Except.error () else Except.ok "X")
      = ⟨false, some "errors.translationFailed", [("a", "fr", "X")],
         [(0, 3), (1, 3), (2, 3)],
         [⟨"a", "a", "Hello", "fr", "French", "English"⟩,
          ⟨"a", "a", "Hello", "de", "German", "English"⟩]⟩ :=
  handleTranslateAll_abort "key" [⟨"a", "a"⟩]
    (fun kid => if kid = "a" then some (fun c => if c = "en" then some "Hello" else none)
      else none)
    [⟨"en", "English"⟩, ⟨"fr", "French"⟩, ⟨"de", "German"⟩, ⟨"it", "Italian"⟩] "en"
    (fun job => if job.targetLangCode = "de" then Except.error () else Except.ok "X")
    (fun _ => "X")
    [⟨"a", "a", "Hello", "fr", "French", "English"⟩]
    ⟨"a", "a", "Hello", "de", "German", "English"⟩
    [⟨"a", "a", "Hello", "it", "Italian", "English"⟩]
    (by decide) (by decide)
    (fun x hx => by rw [List.mem_singleton] at hx; subst hx; rfl)
    rfl

/-- Lookup in an association list built by tabulating a function over a list
containing the key. -/
theorem aget_map_self {α : Type} (f : String → α) (l : List String) (k : String)
    (hk : k ∈ l) : aget k (l.map (fun x => (x, f x))) = some (f k) := by
  induction l with
  | nil => cases hk
  | cons x rest ih =>
    rw [List.map_cons]
    by_cases hx : x = k
    · subst hx
      simp [aget]
    · rw [List.mem_cons] at hk
      rcases hk with hk | hk
      · exact absurd hk.symm hx
      · simpa [aget, hx] using ih hk

/-- C3: after a catalog load the value table is dense — for every key of the
computed key union and every discovered language code, the cell is a defined
string: the flattened file value, or the empty string when that language's
file omits the key. -/
theorem readValuesTable_dense (files : FileStore) (key code : String)
    (hkey : key ∈ readKeyList files) (hcode : code ∈ readLanguageCodes files) :
    tableCell (readValuesTable files) key code
      = some ((aget key (flattenObject (readStoredJson files code) "" [])).getD "") := by
  unfold tableCell readValuesTable
  rw [aget_map_self _ _ _ hkey, Option.some_bind, aget_map_self _ _ _ hcode]
  have hrow : aget code (readPerLangValues files)
      = some (flattenObject (readStoredJson files code) "" []) := by
    unfold readPerLangValues
    exact aget_map_self _ _ _ hcode
  rw [hrow]
  rfl

/-- Witness for C3: a two-language catalog where `fr.json` omits the key now
holds the empty string in the `fr` cell. -/
theorem readValuesTable_dense_witness :
    tableCell
      (readValuesTable [("en", JValue.obj [("a", JValue.str "Hello")]), ("fr", JValue.obj [])])
      "a" "fr" = some "" :=
  readValuesTable_dense
    [("en", JValue.obj [("a", JValue.str "Hello")]), ("fr", JValue.obj [])]
    "a" "fr" (by decide) (by decide)

/-- Irreflexivity of the code-point comparison. -/
theorem charsLt_irrefl : ∀ l : List Char, charsLt l l = false
  | [] => rfl
  | a :: as1 => by
    simp only [charsLt, Nat.lt_irrefl, if_false]
    exact charsLt_irrefl as1

/-- Asymmetry of the code-point comparison. -/
theorem charsLt_asymm : ∀ l1 l2 : List Char, charsLt l1 l2 = true → charsLt l2 l1 = false
  | [], l2 => by cases l2 <;> simp [charsLt]
  | _ :: _, [] => by simp [charsLt]
  | a :: as1, b :: bs1 => by
    simp only [charsLt]
    by_cases h1 : a.toNat < b.toNat
    · intro _
      rw [if_neg (show ¬ b.toNat < a.toNat by omega), if_pos h1]
    · rw [if_neg h1]
      by_cases h2 : b.toNat < a.toNat
      · simp [h2]
      · rw [if_neg h2, if_neg h2, if_neg h1]
        exact charsLt_asymm as1 bs1

/-- Transitivity of the code-point comparison. -/
theorem charsLt_trans : ∀ l1 l2 l3 : List Char,
    charsLt l1 l2 = true → charsLt l2 l3 = true → charsLt l1 l3 = true
  | [], l2, l3 => by cases l2 <;> cases l3 <;> simp [charsLt]
  | _ :: _, [], l3 => by simp [charsLt]
  | _ :: _, _ :: _, [] => by simp [charsLt]
  | a :: as1, b :: bs1, c :: cs1 => by
    simp only [charsLt]
    by_cases hab1 : a.toNat < b.toNat
    · rw [if_pos hab1]
      by_cases hbc1 : b.toNat < c.toNat
      · intro _ _
        rw [if_pos (by omega)]
      · rw [if_neg hbc1]
        by_cases hbc2 : c.toNat < b.toNat
        · simp [hbc2]
        · rw [if_neg hbc2]
          intro _ _
          rw [if_pos (by omega)]
    · rw [if_neg hab1]
      by_cases hab2 : b.toNat < a.toNat
      · simp [hab2]
      · rw [if_neg hab2]
        by_cases hbc1 : b.toNat < c.toNat
        · intro _ _
          rw [if_pos (by omega)]
        · rw [if_neg hbc1]
          by_cases hbc2 : c.toNat < b.toNat
          · simp [hbc2]
          · rw [if_neg hbc2, if_neg (by omega), if_neg (by omega)]
            exact charsLt_trans as1 bs1 cs1

/-- Connectedness of the code-point comparison. -/
theorem charsLt_conn : ∀ l1 l2 : List Char,
    charsLt l1 l2 = false → charsLt l2 l1 = false → l1 = l2
  | [], [] => by simp
  | [], _ :: _ => by simp [charsLt]
  | _ :: _, [] => by simp [charsLt]
  | a :: as1, b :: bs1 => by
    simp only [charsLt]
    by_cases h1 : a.toNat < b.toNat
    · simp [h1]
    · rw [if_neg h1]
      by_cases h2 : b.toNat < a.toNat
      · simp [if_neg h1, h2]
      · rw [if_neg h2, if_neg h2, if_neg h1]
        intro ha hb
        have hn : a.toNat = b.toNat := by omega
        have hv : a.val.toNat = b.val.toNat := hn
        have hc : a = b := Char.ext (UInt32.ext (by exact_mod_cast hv))
        rw [hc, charsLt_conn as1 bs1 ha hb]

/-- Asymmetry of `strLt`. -/
theorem strLt_asymm (a b : String) (h : strLt a b = true) : strLt b a = false :=
  charsLt_asymm _ _ h

/-- Transitivity of `strLt`. -/
theorem strLt_trans (a b c : String) (h1 : strLt a b = true) (h2 : strLt b c = true) :
    strLt a c = true :=
  charsLt_trans _ _ _ h1 h2

/-- Connectedness of `strLt`. -/
theorem strLt_conn (a b : String) (h1 : strLt a b = false) (h2 : strLt b a = false) :
    a = b :=
  String.toList_inj.mp (charsLt_conn _ _ h1 h2)

/-- `localeCompare` is antisymmetric. -/
theorem localeCompare_neg (a b : String) : localeCompare a b = -(localeCompare b a) := by
  unfold localeCompare
  by_cases h1 : strLt a b = true
  · rw [if_pos h1, if_neg (by simp [strLt_asymm a b h1]), if_pos h1]
  · by_cases h2 : strLt b a = true
    · rw [if_neg h1, if_pos h2, if_pos h2]
      rfl
    · rw [if_neg h1, if_neg h2, if_neg h2, if_neg h1]
      rfl

/-- `localeCompare` is negative exactly on `strLt`. -/
theorem localeCompare_lt_iff (a b : String) : localeCompare a b < 0 ↔ strLt a b = true := by
  unfold localeCompare
  by_cases h1 : strLt a b = true
  · simp [h1]
  · rw [if_neg h1]
    by_cases h2 : strLt b a = true
    · simp [h1, h2]
    · simp [h1, h2]

/-- `localeCompare` is zero exactly on equal strings. -/
theorem localeCompare_eq_zero_iff (a b : String) : localeCompare a b = 0 ↔ a = b := by
  unfold localeCompare
  by_cases h1 : strLt a b = true
  · rw [if_pos h1]
    constructor
    · intro h
      cases h
    · intro h
      subst h
      rw [strLt, charsLt_irrefl] at h1
      cases h1
  · rw [if_neg h1]
    by_cases h2 : strLt b a = true
    · rw [if_pos h2]
      constructor
      · intro h
        cases h
      · intro h
        subst h
        rw [strLt, charsLt_irrefl] at h2
        cases h2
    · rw [if_neg h2]
      constructor
      · intro _
        exact strLt_conn a b (by simpa using h1) (by simpa using h2)
      · intro _
        rfl

/-- Unfolding equation of `compareLanguageCodes` in terms of `langRank`. -/
theorem compareLanguageCodes_def (a b : String) :
    compareLanguageCodes a b =
      if langRank a ≠ -1 ∧ langRank b ≠ -1 then
        if langRank a ≠ langRank b then langRank a - langRank b else localeCompare a b
      else if langRank a ≠ -1 then -1
      else if langRank b ≠ -1 then 1
      else if normalizeLanguageCode a ≠ normalizeLanguageCode b then
        localeCompare (normalizeLanguageCode a) (normalizeLanguageCode b)
      else localeCompare a b := rfl

/-- Characterisation of strict precedence under `compareLanguageCodes`. -/
theorem compareLanguageCodes_lt_iff (a b : String) :
    compareLanguageCodes a b < 0 ↔
      ((langRank a ≠ -1 ∧ langRank b ≠ -1 ∧
          (langRank a < langRank b ∨ (langRank a = langRank b ∧ strLt a b = true))) ∨
       (langRank a ≠ -1 ∧ langRank b = -1) ∨
       (langRank a = -1 ∧ langRank b = -1 ∧
          (strLt (normalizeLanguageCode a) (normalizeLanguageCode b) = true ∨
           (normalizeLanguageCode a = normalizeLanguageCode b ∧ strLt a b = true)))) := by
  rw [compareLanguageCodes_def]
  by_cases ha : langRank a = -1 <;> by_cases hb : langRank b = -1
  · by_cases hk : normalizeLanguageCode a = normalizeLanguageCode b
    · have hsl : strLt (normalizeLanguageCode a) (normalizeLanguageCode b) = false := by
        rw [hk]
        exact charsLt_irrefl _
      simp [ha, hb, hk, hsl, localeCompare_lt_iff]
      intro h
      rw [strLt, charsLt_irrefl] at h
      cases h
    · simp [ha, hb, hk, localeCompare_lt_iff]
  · simp [ha, hb]
  · simp [ha, hb]
  · by_cases hr : langRank a = langRank b
    · have hnl : ¬ langRank a < langRank b := by omega
      simp [ha, hb, hr, hnl, localeCompare_lt_iff]
    · have hs : langRank a - langRank b < 0 ↔ langRank a < langRank b := sub_neg
      simp [ha, hb, hr, hs]

/-- C6: `compareLanguageCodes` is a strict total order: for every pair
(including ties on identical normalized codes) `compare(a,b) = -compare(b,a)`,
strict precedence is transitive, and `compare(a,b) = 0` forces `a = b`; codes
whose normalized form is in the popularity list sort before all others and by
list rank among themselves, ties falling back to raw-code comparison and
out-of-list pairs to normalized-code then raw-code comparison. -/
theorem compareLanguageCodes_strict_total_order :
    (∀ a b, compareLanguageCodes a b = -(compareLanguageCodes b a)) ∧
    (∀ a b c, compareLanguageCodes a b < 0 → compareLanguageCodes b c < 0 →
        compareLanguageCodes a c < 0) ∧
    (∀ a b, compareLanguageCodes a b = 0 → a = b) ∧
    (∀ a b, langRank a ≠ -1 → langRank b = -1 → compareLanguageCodes a b = -1) ∧
    (∀ a b, langRank a ≠ -1 → langRank b ≠ -1 → langRank a ≠ langRank b →
        compareLanguageCodes a b = langRank a - langRank b) ∧
    (∀ a b, langRank a = -1 → langRank b = -1 →
        normalizeLanguageCode a ≠ normalizeLanguageCode b →
        compareLanguageCodes a b
          = localeCompare (normalizeLanguageCode a) (normalizeLanguageCode b)) ∧
    (∀ a b, normalizeLanguageCode a = normalizeLanguageCode b →
        compareLanguageCodes a b = localeCompare a b) := by
  have hrankeq : ∀ a b, normalizeLanguageCode a = normalizeLanguageCode b →
      langRank a = langRank b := by
    intro a b h
    unfold langRank
    rw [h]
  refine ⟨fun a b => ?_, fun a b c hab hbc => ?_, fun a b h => ?_,
    fun a b ha hb => ?_, fun a b ha hb hr => ?_, fun a b ha hb hk => ?_,
    fun a b hk => ?_⟩
  · rw [compareLanguageCodes_def a b, compareLanguageCodes_def b a]
    by_cases ha : langRank a = -1 <;> by_cases hb : langRank b = -1
    · rw [if_neg (show ¬(langRank a ≠ -1 ∧ langRank b ≠ -1) by simp [ha]),
        if_neg (show ¬langRank a ≠ -1 by simp [ha]),
        if_neg (show ¬langRank b ≠ -1 by simp [hb]),
        if_neg (show ¬(langRank b ≠ -1 ∧ langRank a ≠ -1) by simp [hb]),
        if_neg (show ¬langRank b ≠ -1 by simp [hb]),
        if_neg (show ¬langRank a ≠ -1 by simp [ha])]
      by_cases hk : normalizeLanguageCode a = normalizeLanguageCode b
      · rw [if_neg (not_not_intro hk), if_neg (not_not_intro hk.symm)]
        exact localeCompare_neg a b
      · rw [if_pos hk, if_pos (Ne.symm hk)]
        exact localeCompare_neg _ _
    · rw [if_neg (show ¬(langRank a ≠ -1 ∧ langRank b ≠ -1) by simp [ha]),
        if_neg (show ¬langRank a ≠ -1 by simp [ha]),
        if_pos (show langRank b ≠ -1 from hb),
        if_neg (show ¬(langRank b ≠ -1 ∧ langRank a ≠ -1) by simp [ha]),
        if_pos (show langRank b ≠ -1 from hb)]
      decide
    · rw [if_neg (show ¬(langRank a ≠ -1 ∧ langRank b ≠ -1) by simp [hb]),
        if_pos (show langRank a ≠ -1 from ha),
        if_neg (show ¬(langRank b ≠ -1 ∧ langRank a ≠ -1) by simp [hb]),
        if_neg (show ¬langRank b ≠ -1 by simp [hb]),
        if_pos (show langRank a ≠ -1 from ha)]
    · rw [if_pos (show langRank a ≠ -1 ∧ langRank b ≠ -1 from ⟨ha, hb⟩),
        if_pos (show langRank b ≠ -1 ∧ langRank a ≠ -1 from ⟨hb, ha⟩)]
      by_cases hr : langRank a = langRank b
      · rw [if_neg (not_not_intro hr), if_neg (not_not_intro hr.symm)]
        exact localeCompare_neg a b
      · rw [if_pos (show langRank a ≠ langRank b from hr),
          if_pos (show langRank b ≠ langRank a from Ne.symm hr)]
        omega
  · rw [compareLanguageCodes_lt_iff] at hab hbc ⊢
    rcases hab with ⟨ha, hb, hlt⟩ | ⟨ha, hb⟩ | ⟨ha, hb, hlt⟩ <;>
      rcases hbc with ⟨hb', hc, hlt'⟩ | ⟨hb', hc⟩ | ⟨hb', hc, hlt'⟩
    · refine Or.inl ⟨ha, hc, ?_⟩
      rcases hlt with h1 | ⟨h1, h2⟩ <;> rcases hlt' with h3 | ⟨h3, h4⟩
      · exact Or.inl (by omega)
      · exact Or.inl (by omega)
      · exact Or.inl (by omega)
      · exact Or.inr ⟨by omega, strLt_trans a b c h2 h4⟩
    · exact Or.inr (Or.inl ⟨ha, hc⟩)
    · exact absurd hb' hb
    · exact absurd hb hb'
    · exact absurd hb hb'
    · exact Or.inr (Or.inl ⟨ha, hc⟩)
    · exact absurd hb hb'
    · exact absurd hb hb'
    · refine Or.inr (Or.inr ⟨ha, hc, ?_⟩)
      rcases hlt with h1 | ⟨h1, h2⟩ <;> rcases hlt' with h3 | ⟨h3, h4⟩
      · exact Or.inl (strLt_trans _ _ _ h1 h3)
      · exact Or.inl (by rw [← h3]; exact h1)
      · exact Or.inl (by rw [h1]; exact h3)
      · exact Or.inr ⟨h1.trans h3, strLt_trans a b c h2 h4⟩
  · rw [compareLanguageCodes_def] at h
    by_cases ha : langRank a = -1 <;> by_cases hb : langRank b = -1
    · rw [if_neg (show ¬(langRank a ≠ -1 ∧ langRank b ≠ -1) by simp [ha]),
        if_neg (show ¬langRank a ≠ -1 by simp [ha]),
        if_neg (show ¬langRank b ≠ -1 by simp [hb])] at h
      by_cases hk : normalizeLanguageCode a = normalizeLanguageCode b
      · rw [if_neg (not_not_intro hk)] at h
        exact (localeCompare_eq_zero_iff a b).mp h
      · rw [if_pos hk] at h
        exact absurd ((localeCompare_eq_zero_iff _ _).mp h) hk
    · rw [if_neg (show ¬(langRank a ≠ -1 ∧ langRank b ≠ -1) by simp [ha]),
        if_neg (show ¬langRank a ≠ -1 by simp [ha]),
        if_pos (show langRank b ≠ -1 from hb)] at h
      exact absurd h (by decide)
    · rw [if_neg (show ¬(langRank a ≠ -1 ∧ langRank b ≠ -1) by simp [hb]),
        if_pos (show langRank a ≠ -1 from ha)] at h
      exact absurd h (by decide)
    · rw [if_pos (show langRank a ≠ -1 ∧ langRank b ≠ -1 from ⟨ha, hb⟩)] at h
      by_cases hr : langRank a = langRank b
      · rw [if_neg (not_not_intro hr)] at h
        exact (localeCompare_eq_zero_iff a b).mp h
      · rw [if_pos (show langRank a ≠ langRank b from hr)] at h
        exact absurd (by omega) hr
  · rw [compareLanguageCodes_def,
      if_neg (show ¬(langRank a ≠ -1 ∧ langRank b ≠ -1) by simp [hb]),
      if_pos (show langRank a ≠ -1 from ha)]
  · rw [compareLanguageCodes_def,
      if_pos (show langRank a ≠ -1 ∧ langRank b ≠ -1 from ⟨ha, hb⟩),
      if_pos (show langRank a ≠ langRank b from hr)]
  · rw [compareLanguageCodes_def,
      if_neg (show ¬(langRank a ≠ -1 ∧ langRank b ≠ -1) by simp [ha]),
      if_neg (show ¬langRank a ≠ -1 by simp [ha]),
      if_neg (show ¬langRank b ≠ -1 by simp [hb]),
      if_pos (show normalizeLanguageCode a ≠ normalizeLanguageCode b from hk)]
  · by_cases ha : langRank a = -1
    · have hb : langRank b = -1 := by rw [← hrankeq a b hk]; exact ha
      rw [compareLanguageCodes_def,
        if_neg (show ¬(langRank a ≠ -1 ∧ langRank b ≠ -1) by simp [ha]),
        if_neg (show ¬langRank a ≠ -1 by simp [ha]),
        if_neg (show ¬langRank b ≠ -1 by simp [hb]),
        if_neg (not_not_intro hk)]
    · have hb : langRank b ≠ -1 := by rw [← hrankeq a b hk]; exact ha
      rw [compareLanguageCodes_def,
        if_pos (show langRank a ≠ -1 ∧ langRank b ≠ -1 from ⟨ha, hb⟩),
        if_neg (not_not_intro (hrankeq a b hk))]

/-- Witness for C6: transitivity at `en < es < de` and rank precedence of a
popular-language regional variant over an unlisted code. -/
theorem compareLanguageCodes_strict_total_order_witness :
    compareLanguageCodes "en" "de" < 0 ∧ compareLanguageCodes "pt-BR" "zz" = -1 :=
  ⟨compareLanguageCodes_strict_total_order.2.1 "en" "es" "de" (by decide) (by decide),
   compareLanguageCodes_strict_total_order.2.2.2.1 "pt-BR" "zz" (by decide) (by decide)⟩

/-- Reading back the key just written. -/
theorem aget_aset_self {α : Type} (l : List (String × α)) (k : String) (v : α) :
    aget k (aset l k v) = some v := by
  induction l with
  | nil => simp [aset, aget]
  | cons p rest ih =>
    by_cases h : p.1 = k
    · simp [aset, aget, h]
    · obtain ⟨k', v'⟩ := p
      simp only at h
      simp [aset, aget, h, ih]

/-- Writing one key leaves every other key unchanged. -/
theorem aget_aset_other {α : Type} (l : List (String × α)) (k k' : String) (v : α)
    (h : k' ≠ k) : aget k (aset l k' v) = aget k l := by
  induction l with
  | nil => simp [aset, aget, h]
  | cons p rest ih =>
    obtain ⟨k0, v0⟩ := p
    by_cases h0 : k0 = k'
    · subst h0
      simp [aset, aget, h]
    · simp [aset, aget, h0, ih]

/-- Lookup distributes over append, first list first. -/
theorem aget_append {α : Type} (l1 l2 : List (String × α)) (k : String) :
    aget k (l1 ++ l2) = (aget k l1).orElse (fun _ => aget k l2) := by
  induction l1 with
  | nil => simp [aget]
  | cons p rest ih =>
    obtain ⟨k0, v0⟩ := p
    by_cases h0 : k0 = k
    · simp [aget, h0]
    · simp [aget, h0, ih]

/-- Absent keys look up to `none`. -/
theorem aget_eq_none {α : Type} (l : List (String × α)) (k : String)
    (h : k ∉ l.map Prod.fst) : aget k l = none := by
  induction l with
  | nil => rfl
  | cons p rest ih =>
    obtain ⟨k0, v0⟩ := p
    simp only [List.map_cons, List.mem_cons] at h
    push_neg at h
    have h1 : ¬ k0 = k := fun hh => h.1 hh.symm
    simp [aget, h1, ih h.2]

/-- A present key looks up to `some`. -/
theorem aget_isSome {α : Type} (l : List (String × α)) (k : String)
    (h : k ∈ l.map Prod.fst) : ∃ v, aget k l = some v := by
  induction l with
  | nil => cases h
  | cons p rest ih =>
    obtain ⟨k0, v0⟩ := p
    by_cases h0 : k0 = k
    · exact ⟨v0, by simp [aget, h0]⟩
    · simp only [List.map_cons, List.mem_cons] at h
      rcases h with h | h
      · exact absurd h.symm h0
      · simpa [aget, h0] using ih h

/-- The keys after a write are the old keys, plus the written key when new. -/
theorem aset_map_fst {α : Type} (l : List (String × α)) (k : String) (v : α) :
    (aset l k v).map Prod.fst = if k ∈ l.map Prod.fst then l.map Prod.fst
      else l.map Prod.fst ++ [k] := by
  induction l with
  | nil => simp [aset]
  | cons p rest ih =>
    obtain ⟨k0, v0⟩ := p
    by_cases h0 : k0 = k
    · subst h0
      simp [aset]
    · simp only [aset, if_neg h0, List.map_cons, ih]
      by_cases hm : k ∈ rest.map Prod.fst
      · rw [if_pos hm, if_pos (by simp [hm])]
      · have hnotin : ¬ k ∈ k0 :: List.map Prod.fst rest := by
          simp only [List.mem_cons]
          push_neg
          exact ⟨fun hh => h0 hh.symm, hm⟩
        rw [if_neg hm, if_neg hnotin, List.cons_append]

/-- Concatenation of `String.mk` pieces. -/
theorem mk_append (l1 l2 : List Char) : String.mk l1 ++ String.mk l2 = String.mk (l1 ++ l2) :=
  rfl

/-- `splitDot` never returns the empty list. -/
theorem splitDotAux_ne_nil : ∀ (cs acc : List Char), splitDotAux cs acc ≠ []
  | [], acc => by simp [splitDotAux]
  | c :: rest, acc => by
    by_cases h : c = '.'
    · simp [splitDotAux, h]
    · simpa [splitDotAux, h] using splitDotAux_ne_nil rest (c :: acc)

/-- `splitDot` never returns the empty list. -/
theorem splitDot_ne_nil (s : String) : splitDot s ≠ [] :=
  splitDotAux_ne_nil s.toList []

/-- Every part produced by `splitDotAux` from a dot-free accumulator is
dot-free. -/
theorem splitDotAux_dotFree : ∀ (cs acc : List Char), (∀ c ∈ acc, c ≠ '.') →
    ∀ p ∈ splitDotAux cs acc, dotFreeB p = true
  | [], acc => by
    intro hacc p hp
    simp only [splitDotAux, List.mem_singleton] at hp
    subst hp
    simp only [dotFreeB, List.all_eq_true]
    intro c hc
    simp only [String.toList] at hc
    have : c ∈ acc := by simpa using hc
    simpa using hacc c this
  | c :: rest, acc => by
    intro hacc p hp
    by_cases h : c = '.'
    · rw [splitDotAux, if_pos h] at hp
      rcases List.mem_cons.mp hp with hp | hp
      · subst hp
        simp only [dotFreeB, List.all_eq_true]
        intro c' hc'
        have : c' ∈ acc := by simpa using hc'
        simpa using hacc c' this
      · exact splitDotAux_dotFree rest [] (by simp) p hp
    · rw [splitDotAux, if_neg h] at hp
      refine splitDotAux_dotFree rest (c :: acc) ?_ p hp
      intro c' hc'
      rcases List.mem_cons.mp hc' with hc' | hc'
      · subst hc'
        exact h
      · exact hacc c' hc'

/-- Every part of a split key is dot-free. -/
theorem splitDot_dotFree (s : String) : ∀ p ∈ splitDot s, dotFreeB p = true :=
  splitDotAux_dotFree s.toList [] (by simp)

/-- Joining the parts produced by `splitDotAux` restores the input. -/
theorem joinDot_splitDotAux : ∀ (cs acc : List Char),
    joinDot (splitDotAux cs acc) = String.mk (acc.reverse ++ cs)
  | [], acc => by
    simp [splitDotAux, joinDot]
  | c :: rest, acc => by
    by_cases h : c = '.'
    · rw [splitDotAux, if_pos h]
      obtain ⟨p, rest', hrest⟩ : ∃ p rest', splitDotAux rest [] = p :: rest' := by
        cases hs : splitDotAux rest [] with
        | nil => exact absurd hs (splitDotAux_ne_nil rest [])
        | cons p rest' => exact ⟨p, rest', rfl⟩
      rw [hrest, joinDot, ← hrest, joinDot_splitDotAux rest []]
      subst h
      rw [show ("." : String) = String.mk ['.'] from rfl, mk_append, mk_append]
      simp
    · rw [splitDotAux, if_neg h, joinDot_splitDotAux rest (c :: acc)]
      simp

/-- `joinDot` is a left inverse of `splitDot`. -/
theorem joinDot_splitDot (s : String) : joinDot (splitDot s) = s := by
  have h := joinDot_splitDotAux s.toList []
  simpa [splitDot] using h

/-- `splitDot` is injective. -/
theorem splitDot_inj (s t : String) (h : splitDot s = splitDot t) : s = t := by
  have hs := joinDot_splitDot s
  have ht := joinDot_splitDot t
  rw [← hs, ← ht, h]

/-- `dotFreeB` in terms of membership. -/
theorem dotFreeB_iff (p : String) : dotFreeB p = true ↔ ∀ c ∈ p.toList, c ≠ '.' := by
  simp [dotFreeB]

/-- `splitDotAux` consumes a dot-free chunk into the accumulator. -/
theorem splitDotAux_chunk : ∀ (p cs acc : List Char), (∀ c ∈ p, c ≠ '.') →
    splitDotAux (p ++ cs) acc = splitDotAux cs (p.reverse ++ acc)
  | [], cs, acc => by simp
  | c :: p', cs, acc => by
    intro hp
    have hc : ¬ c = '.' := hp c (by simp)
    rw [List.cons_append, splitDotAux, if_neg hc,
      splitDotAux_chunk p' cs (c :: acc) (fun x hx => hp x (by simp [hx]))]
    simp

/-- Splitting a joined dot-free part list restores the parts. -/
theorem splitDot_joinDot : ∀ parts : List String, parts ≠ [] →
    (∀ p ∈ parts, dotFreeB p = true) → splitDot (joinDot parts) = parts
  | [], h, _ => absurd rfl h
  | [p], _, hdf => by
    have hp : ∀ c ∈ p.toList, c ≠ '.' := (dotFreeB_iff p).mp (hdf p (by simp))
    have h := splitDotAux_chunk p.toList [] [] hp
    simp only [List.append_nil] at h
    rw [joinDot, splitDot, h, splitDotAux]
    simp [String.mk]
  | p :: q :: rest, _, hdf => by
    have hp : ∀ c ∈ p.toList, c ≠ '.' := (dotFreeB_iff p).mp (hdf p (by simp))
    rw [joinDot, splitDot]
    have hdata : (p ++ "." ++ joinDot (q :: rest)).toList
        = p.toList ++ ('.' :: (joinDot (q :: rest)).toList) := by
      rw [show (p ++ "." ++ joinDot (q :: rest)) = p ++ ("." ++ joinDot (q :: rest)) by
        rw [String.append_assoc]]
      rw [show ((p ++ ("." ++ joinDot (q :: rest))).toList : List Char)
        = p.data ++ ("." ++ joinDot (q :: rest)).data from String.data_append _ _]
      rw [String.data_append]
      rfl
    rw [hdata, splitDotAux_chunk p.toList ('.' :: (joinDot (q :: rest)).toList) [] hp,
      splitDotAux, if_pos rfl]
    have : String.mk (p.toList.reverse ++ []).reverse = p := by simp [String.mk]
    rw [this,
      show splitDotAux (joinDot (q :: rest)).toList [] = splitDot (joinDot (q :: rest)) from rfl,
      splitDot_joinDot (q :: rest) (by simp) (fun x hx => hdf x (by simp [hx]))]

/-- Splitting a dot-free head glued with a dot. -/
theorem splitDot_dotcat (p q : String) (hdf : dotFreeB p = true) :
    splitDot (p ++ "." ++ q) = p :: splitDot q := by
  have hp : ∀ c ∈ p.toList, c ≠ '.' := (dotFreeB_iff p).mp hdf
  have hdata : (p ++ "." ++ q).toList = p.toList ++ ('.' :: q.toList) := by
    rw [show (p ++ "." ++ q) = p ++ ("." ++ q) by rw [String.append_assoc]]
    rw [show ((p ++ ("." ++ q)).toList : List Char)
      = p.data ++ ("." ++ q).data from String.data_append _ _]
    rw [String.data_append]
    rfl
  rw [splitDot, hdata, splitDotAux_chunk p.toList ('.' :: q.toList) [] hp,
    splitDotAux, if_pos rfl]
  have : String.mk (p.toList.reverse ++ []).reverse = p := by simp [String.mk]
  rw [this]
  rfl

/-- `setParts` keeps an object root an object. -/
theorem setParts_isObj : ∀ (ps : List String) (fs : List (String × JValue)) (v : String),
    ∃ gs, setParts ps (JValue.obj fs) v = JValue.obj gs
  | [], fs, _ => ⟨fs, rfl⟩
  | [p], fs, v => ⟨aset fs p (JValue.str v), rfl⟩
  | p :: q :: rest, fs, v =>
    ⟨aset fs p (setParts (q :: rest) (childForSet (JValue.obj fs) p) v), rfl⟩

/-- The chosen intermediate child is always a plain object. -/
theorem childForSet_isObj (t : JValue) (p : String) :
    ∃ cfs, childForSet t p = JValue.obj cfs := by
  cases t with
  | obj fields =>
    cases h : aget p fields with
    | none => exact ⟨[], by simp [childForSet, h]⟩
    | some v =>
      cases v with
      | obj fs => exact ⟨fs, by simp [childForSet, h]⟩
      | str s => exact ⟨[], by simp [childForSet, h]⟩
      | arr elems => exact ⟨[], by simp [childForSet, h]⟩
      | num n => exact ⟨[], by simp [childForSet, h]⟩
      | boolVal b => exact ⟨[], by simp [childForSet, h]⟩
      | nullVal => exact ⟨[], by simp [childForSet, h]⟩
  | str s => exact ⟨[], rfl⟩
  | arr elems => exact ⟨[], rfl⟩
  | num n => exact ⟨[], rfl⟩
  | boolVal b => exact ⟨[], rfl⟩
  | nullVal => exact ⟨[], rfl⟩

/-- Reading back a freshly set dot-path yields the written string leaf. -/
theorem getParts_setParts_self : ∀ (ps : List String) (fs : List (String × JValue))
    (v : String), ps ≠ [] → getParts ps (setParts ps (JValue.obj fs) v) = some (JValue.str v)
  | [], _, _, h => absurd rfl h
  | [p], fs, v, _ => by
    simp only [setParts, objSet, getParts, aget_aset_self]
  | p :: q :: rest, fs, v, _ => by
    obtain ⟨cfs, hc⟩ := childForSet_isObj (JValue.obj fs) p
    simp only [setParts, objSet, hc, getParts, aget_aset_self]
    exact getParts_setParts_self (q :: rest) cfs v (by simp)

/-- Reading a strict prefix of a freshly set dot-path yields a plain object. -/
theorem getParts_setParts_strictPre : ∀ (qs ps : List String), qs <+: ps → qs ≠ ps →
    ∀ (fs : List (String × JValue)) (v : String),
    ∃ gs, getParts qs (setParts ps (JValue.obj fs) v) = some (JValue.obj gs)
  | [], ps, _, _, fs, v => by
    obtain ⟨gs, hg⟩ := setParts_isObj ps fs v
    exact ⟨gs, by rw [getParts, hg]⟩
  | q :: qs', ps, hpre, hne, fs, v => by
    rcases ps with _ | ⟨p, ps'⟩
    · exact absurd hpre (by simp)
    · obtain ⟨hq, hpre'⟩ := List.cons_prefix_cons.mp hpre
      subst hq
      have hne' : qs' ≠ ps' := fun h => hne (by rw [h])
      rcases ps' with _ | ⟨a, ps''⟩
      · exact absurd (List.prefix_nil.mp hpre') hne'
      · obtain ⟨cfs, hc⟩ := childForSet_isObj (JValue.obj fs) q
        obtain ⟨gs, hg⟩ :=
          getParts_setParts_strictPre qs' (a :: ps'') hpre' hne' cfs v
        refine ⟨gs, ?_⟩
        simp only [setParts, objSet, hc, getParts, aget_aset_self]
        exact hg

/-- A path diverging from a freshly built chain reads `none`. -/
theorem getParts_setParts_fresh : ∀ (ps qs : List String) (v : String),
    ¬ ps <+: qs → ¬ qs <+: ps →
    getParts qs (setParts ps (JValue.obj []) v) = none
  | [], qs, v, hp, _ => absurd List.nil_prefix hp
  | ps, [], v, _, hq => absurd List.nil_prefix hq
  | [p], q :: qs', v, hp, hq => by
    by_cases hpq : p = q
    · subst hpq
      exact absurd (List.cons_prefix_cons.mpr ⟨rfl, List.nil_prefix⟩) hp
    · simp only [setParts, objSet, getParts]
      rw [show aset ([] : List (String × JValue)) p (JValue.str v) = [(p, JValue.str v)]
        from rfl]
      rw [show aget q [(p, JValue.str v)] = none by simp [aget, hpq]]
  | p :: a :: rest, q :: qs', v, hp, hq => by
    by_cases hpq : p = q
    · subst hpq
      have hp' : ¬ (a :: rest) <+: qs' := fun h =>
        hp (List.cons_prefix_cons.mpr ⟨rfl, h⟩)
      have hq' : ¬ qs' <+: (a :: rest) := fun h =>
        hq (List.cons_prefix_cons.mpr ⟨rfl, h⟩)
      have hchild : childForSet (JValue.obj []) p = JValue.obj [] := rfl
      simp only [setParts, objSet, hchild, getParts]
      rw [show aset ([] : List (String × JValue)) p
          (setParts (a :: rest) (JValue.obj []) v)
        = [(p, setParts (a :: rest) (JValue.obj []) v)] from rfl]
      rw [show aget p [(p, setParts (a :: rest) (JValue.obj []) v)]
          = some (setParts (a :: rest) (JValue.obj []) v) by simp [aget]]
      exact getParts_setParts_fresh (a :: rest) qs' v hp' hq'
    · have hchild : childForSet (JValue.obj []) p = JValue.obj [] := rfl
      simp only [setParts, objSet, hchild, getParts]
      rw [show aget q (aset ([] : List (String × JValue)) p
          (setParts (a :: rest) (JValue.obj []) v)) = none by
        simp [aset, aget, hpq]]

/-- Reading concatenated paths composes the walks. -/
theorem getParts_append : ∀ (ps qs : List String) (t : JValue),
    getParts (ps ++ qs) t = (getParts ps t).bind (fun x => getParts qs x)
  | [], qs, t => by simp [getParts]
  | p :: rest, qs, t => by
    cases t with
    | obj fields =>
      rw [List.cons_append, getParts]
      cases h : aget p fields with
      | none => simp [getParts, h]
      | some next => simp only [getParts, h, getParts_append rest qs next]
    | arr elems =>
      rw [List.cons_append, getParts]
      cases hi : jsArrayIndex p with
      | none => simp [getParts, hi]
      | some i =>
        cases he : elems[i]? with
        | none => simp [getParts, hi, he]
        | some next => simp only [getParts, hi, he, getParts_append rest qs next]
    | str s => simp [getParts]
    | num n => simp [getParts]
    | boolVal b => simp [getParts]
    | nullVal => simp [getParts]

/-- Frame lemma: writing along a dot-path whose present prefixes are all
plain objects does not change the reading of any path that is prefix-
incomparable with it. -/
theorem getParts_setParts_frame : ∀ (ps qs : List String) (t : JValue) (v : String),
    ¬ ps <+: qs → ¬ qs <+: ps →
    (∀ j, j < ps.length → ∀ x, getParts (ps.take j) t = some x →
      ∃ gs, x = JValue.obj gs) →
    getParts qs (setParts ps t v) = getParts qs t
  | [], qs, t, v, hp, _, _ => absurd List.nil_prefix hp
  | ps, [], t, v, _, hq, _ => absurd List.nil_prefix hq
  | [p], q :: qs', t, v, hp, hq, hobj => by
    obtain ⟨fs, hfs⟩ := hobj 0 (by simp) t (by rw [List.take_zero, getParts])
    subst hfs
    by_cases hpq : p = q
    · subst hpq
      exact absurd (List.cons_prefix_cons.mpr ⟨rfl, List.nil_prefix⟩) hp
    · simp only [setParts, objSet, getParts]
      rw [aget_aset_other fs q p (JValue.str v) hpq]
  | p :: a :: rest, q :: qs', t, v, hp, hq, hobj => by
    obtain ⟨fs, hfs⟩ := hobj 0 (by simp) t (by rw [List.take_zero, getParts])
    subst hfs
    by_cases hpq : p = q
    · subst hpq
      have hp' : ¬ (a :: rest) <+: qs' := fun h =>
        hp (List.cons_prefix_cons.mpr ⟨rfl, h⟩)
      have hq' : ¬ qs' <+: (a :: rest) := fun h =>
        hq (List.cons_prefix_cons.mpr ⟨rfl, h⟩)
      simp only [setParts, objSet, getParts, aget_aset_self]
      cases hc : aget p fs with
      | some c =>
        obtain ⟨gs, hgs⟩ := hobj 1 (by simp) c
          (by simp [getParts, hc])
        subst hgs
        have hchild : childForSet (JValue.obj fs) p = JValue.obj gs := by
          simp [childForSet, hc]
        rw [hchild]
        refine getParts_setParts_frame (a :: rest) qs' (JValue.obj gs) v hp' hq' ?_
        intro j hj x hx
        refine hobj (j + 1) (by simpa using hj) x ?_
        simpa [getParts, hc] using hx
      | none =>
        have hchild : childForSet (JValue.obj fs) p = JValue.obj [] := by
          simp [childForSet, hc]
        rw [hchild, getParts_setParts_fresh (a :: rest) qs' v hp' hq']
    · simp only [setParts, objSet, getParts]
      rw [aget_aset_other fs q p _ hpq]

/-- C9: writing one cell changes only the written dot-path — for any other
path that is prefix-incomparable with the written key, provided every node
along the key (root included) that is present is a plain object, the read at
the other path is unchanged; and `updateTranslationValue` leaves every other
language file byte-for-byte untouched. -/
theorem setNestedValue_frame :
    (∀ (t : JValue) (k p v : String),
        ¬ (splitDot p <+: splitDot k) → ¬ (splitDot k <+: splitDot p) →
        (∀ j, j < (splitDot k).length → ∀ x, getParts ((splitDot k).take j) t = some x →
          ∃ gs, x = JValue.obj gs) →
        getNestedValue (setNestedValue t k v) p = getNestedValue t p) ∧
    (∀ (fs : FileStore) (lang lang' key value : String), lang' ≠ lang →
        readStoredJson (updateTranslationValue fs lang key value) lang'
          = readStoredJson fs lang') := by
  constructor
  · intro t k p v h1 h2 hobj
    exact getParts_setParts_frame (splitDot k) (splitDot p) t v h2 h1 hobj
  · intro fs lang lang' key value h
    unfold updateTranslationValue writeStoredJson readStoredJson
    rw [aget_aset_other fs lang' lang _ (Ne.symm h)]

/-- Witness for C9: writing `a.b` leaves the sibling array at `a.keep` (and
the rest of the file) unchanged. -/
theorem setNestedValue_frame_witness :
    getNestedValue
        (setNestedValue
          (JValue.obj [("a", JValue.obj [("b", JValue.str "x"),
            ("keep", JValue.arr [JValue.num 1])])]) "a.b" "y") "a.keep"
      = getNestedValue
          (JValue.obj [("a", JValue.obj [("b", JValue.str "x"),
            ("keep", JValue.arr [JValue.num 1])])]) "a.keep" :=
  setNestedValue_frame.1
    (JValue.obj [("a", JValue.obj [("b", JValue.str "x"),
      ("keep", JValue.arr [JValue.num 1])])]) "a.b" "a.keep" "y"
    (by decide) (by decide)
    (by
      intro j hj x hx
      have hl : (splitDot "a.b").length = 2 := by decide
      rw [hl] at hj
      interval_cases j
      · rw [show getParts ((splitDot "a.b").take 0)
            (JValue.obj [("a", JValue.obj [("b", JValue.str "x"),
              ("keep", JValue.arr [JValue.num 1])])])
          = some (JValue.obj [("a", JValue.obj [("b", JValue.str "x"),
              ("keep", JValue.arr [JValue.num 1])])]) from rfl] at hx
        exact ⟨_, (Option.some_inj.mp hx).symm⟩
      · rw [show getParts ((splitDot "a.b").take 1)
            (JValue.obj [("a", JValue.obj [("b", JValue.str "x"),
              ("keep", JValue.arr [JValue.num 1])])])
          = some (JValue.obj [("b", JValue.str "x"),
              ("keep", JValue.arr [JValue.num 1])]) from rfl] at hx
        exact ⟨_, (Option.some_inj.mp hx).symm⟩)

/-- `setParts` leaves a top-level array unchanged (JS writes to array
properties are dropped by serialisation). -/
theorem setParts_arr : ∀ (ps : List String) (es : List JValue) (v : String),
    setParts ps (JValue.arr es) v = JValue.arr es
  | [], _, _ => rfl
  | [_], _, _ => rfl
  | _ :: _ :: _, _, _ => rfl

/-- Reading a stored file always yields an object-like value. -/
theorem readStoredJson_isObjLike (fs : FileStore) (code : String) :
    isObjLike (readStoredJson fs code) = true := by
  unfold readStoredJson
  cases h : aget code fs with
  | none => rfl
  | some v =>
    show isObjLike (if isObjLike v = true then v else JValue.obj []) = true
    by_cases hv : isObjLike v = true
    · rw [if_pos hv]
      exact hv
    · rw [if_neg hv]
      rfl

/-- When every stored value is a plain object, so is every read. -/
theorem readStoredJson_obj (fs : FileStore) (code : String)
    (hobj : ∀ kv ∈ fs, ∃ gs, kv.2 = JValue.obj gs) :
    ∃ gs, readStoredJson fs code = JValue.obj gs := by
  unfold readStoredJson
  cases h : aget code fs with
  | none => exact ⟨[], rfl⟩
  | some v =>
    have hmem : ∃ k, (k, v) ∈ fs := by
      clear hobj
      induction fs with
      | nil => cases h
      | cons p rest ih =>
        obtain ⟨k0, v0⟩ := p
        by_cases h0 : k0 = code
        · subst h0
          rw [aget, if_pos rfl] at h
          exact ⟨k0, by simp [Option.some_inj.mp h]⟩
        · rw [aget, if_neg h0] at h
          obtain ⟨k, hk⟩ := ih h
          exact ⟨k, by simp [hk]⟩
    obtain ⟨k, hk⟩ := hmem
    obtain ⟨gs, hgs⟩ := hobj (k, v) hk
    simp only at hgs
    subst hgs
    refine ⟨gs, ?_⟩
    show (if isObjLike (JValue.obj gs) = true then JValue.obj gs else JValue.obj [])
      = JValue.obj gs
    rw [if_pos (show isObjLike (JValue.obj gs) = true from rfl)]

/-- Membership after an association-list write. -/
theorem mem_aset {α : Type} (l : List (String × α)) (k : String) (v : α) :
    ∀ kv ∈ aset l k v, kv ∈ l ∨ kv = (k, v) := by
  induction l with
  | nil =>
    intro kv hkv
    simp only [aset, List.mem_singleton] at hkv
    exact Or.inr hkv
  | cons p rest ih =>
    obtain ⟨k0, v0⟩ := p
    intro kv hkv
    by_cases h0 : k0 = k
    · rw [aset, if_pos h0] at hkv
      rcases List.mem_cons.mp hkv with hkv | hkv
      · exact Or.inr (by rw [hkv, h0])
      · exact Or.inl (by simp [hkv])
    · rw [aset, if_neg h0] at hkv
      rcases List.mem_cons.mp hkv with hkv | hkv
      · exact Or.inl (by simp [hkv])
      · rcases ih kv hkv with h | h
        · exact Or.inl (by simp [h])
        · exact Or.inr h

/-- One `addKeyStep` preserves the all-objects invariant. -/
theorem addKeyStep_obj (key sourceLang value : String) (acc : FileStore) (code : String)
    (hobj : ∀ kv ∈ acc, ∃ gs, kv.2 = JValue.obj gs) :
    ∀ kv ∈ addKeyStep key sourceLang value acc code, ∃ gs, kv.2 = JValue.obj gs := by
  unfold addKeyStep writeStoredJson
  by_cases hc : (getNestedValue (readStoredJson acc code) key).isNone = true
  · rw [if_pos hc]
    intro kv hkv
    rcases mem_aset acc code _ kv hkv with h | h
    · exact hobj kv h
    · obtain ⟨gs, hgs⟩ := readStoredJson_obj acc code hobj
      rw [h]
      obtain ⟨gs', hgs'⟩ := setParts_isObj (splitDot key) gs
        (if code = sourceLang then value else "")
      exact ⟨gs', by simp only [setNestedValue, hgs, hgs']⟩
  · rw [if_neg hc]
    exact hobj

/-- One `addKeyStep` leaves every other file untouched. -/
theorem addKeyStep_other (key sourceLang value : String) (acc : FileStore) (code c : String)
    (h : c ≠ code) :
    readStoredJson (addKeyStep key sourceLang value acc code) c = readStoredJson acc c := by
  unfold addKeyStep writeStoredJson
  by_cases hc : (getNestedValue (readStoredJson acc code) key).isNone = true
  · rw [if_pos hc]
    unfold readStoredJson
    rw [aget_aset_other acc c code _ (Ne.symm h)]
  · rw [if_neg hc]

/-- A fold of `addKeyStep` over codes not containing `c` leaves `c`'s file
untouched. -/
theorem addKey_foldl_other (key sourceLang value : String) :
    ∀ (codes : List String) (acc : FileStore) (c : String), c ∉ codes →
    readStoredJson (codes.foldl (addKeyStep key sourceLang value) acc) c
      = readStoredJson acc c
  | [], acc, c, _ => rfl
  | code :: rest, acc, c, h => by
    rw [List.foldl_cons,
      addKey_foldl_other key sourceLang value rest _ c (fun hh => h (by simp [hh])),
      addKeyStep_other key sourceLang value acc code c (fun hh => h (by simp [hh]))]

/-- The file written by `addKeyStep` at its own code. -/
theorem addKeyStep_self (key sourceLang value : String) (acc : FileStore) (code : String)
    (hobj : ∀ kv ∈ acc, ∃ gs, kv.2 = JValue.obj gs) :
    readStoredJson (addKeyStep key sourceLang value acc code) code
      = addKeyFileResult acc key sourceLang value code := by
  by_cases hc : (getNestedValue (readStoredJson acc code) key).isNone = true
  · unfold addKeyStep
    rw [if_pos hc]
    unfold addKeyFileResult
    rw [if_pos hc]
    obtain ⟨gs, hgs⟩ := readStoredJson_obj acc code hobj
    obtain ⟨gs', hgs'⟩ := setParts_isObj (splitDot key) gs
      (if code = sourceLang then value else "")
    have hw : setNestedValue (readStoredJson acc code) key
        (if code = sourceLang then value else "") = JValue.obj gs' := by
      rw [setNestedValue, hgs, hgs']
    rw [hw]
    unfold readStoredJson writeStoredJson
    rw [aget_aset_self]
    show (if isObjLike (JValue.obj gs') = true then JValue.obj gs' else JValue.obj [])
      = JValue.obj gs'
    rw [if_pos (show isObjLike (JValue.obj gs') = true from rfl)]
  · unfold addKeyStep addKeyFileResult
    rw [if_neg hc, if_neg hc]

/-- Any key reads as absent from an empty document. -/
theorem getNestedValue_empty (key : String) : getNestedValue (JValue.obj []) key = none := by
  unfold getNestedValue
  obtain ⟨p, rest, h⟩ : ∃ p rest, splitDot key = p :: rest := by
    cases hs : splitDot key with
    | nil => exact absurd hs (splitDot_ne_nil key)
    | cons p rest => exact ⟨p, rest, rfl⟩
  rw [h, getParts]
  simp [aget]

/-- Fold characterisation: against a duplicate-free code list and an
all-objects store, each processed file ends up exactly as
`addKeyFileResult` prescribes. -/
theorem addKey_foldl_char (key sourceLang value : String) :
    ∀ (codes : List String) (acc : FileStore), codes.Nodup →
    (∀ kv ∈ acc, ∃ gs, kv.2 = JValue.obj gs) →
    ∀ c ∈ codes,
      readStoredJson (codes.foldl (addKeyStep key sourceLang value) acc) c
        = addKeyFileResult acc key sourceLang value c
  | [], _, _, _, c, hc => absurd hc (by simp)
  | code :: rest, acc, hnd, hobj, c, hc => by
    rw [List.foldl_cons]
    have hnd' : rest.Nodup := (List.nodup_cons.mp hnd).2
    have hcode : code ∉ rest := (List.nodup_cons.mp hnd).1
    rcases List.mem_cons.mp hc with hc | hc
    · subst hc
      rw [addKey_foldl_other key sourceLang value rest _ c hcode,
        addKeyStep_self key sourceLang value acc c hobj]
    · have hcne : c ≠ code := fun h => hcode (h ▸ hc)
      rw [addKey_foldl_char key sourceLang value rest _ hnd'
        (addKeyStep_obj key sourceLang value acc code hobj) c hc]
      unfold addKeyFileResult
      rw [addKeyStep_other key sourceLang value acc code c hcne]

/-- The file names after one step: unchanged, or extended by the new code. -/
theorem addKeyStep_fst (key sourceLang value : String) (acc : FileStore) (code : String) :
    (addKeyStep key sourceLang value acc code).map Prod.fst
      = if code ∈ acc.map Prod.fst then acc.map Prod.fst
        else acc.map Prod.fst ++ [code] := by
  unfold addKeyStep writeStoredJson
  by_cases hc : (getNestedValue (readStoredJson acc code) key).isNone = true
  · rw [if_pos hc]
    exact aset_map_fst acc code _
  · rw [if_neg hc]
    have hmem : code ∈ acc.map Prod.fst := by
      by_contra hmem
      have h1 : aget code acc = none := aget_eq_none acc code hmem
      have h2 : readStoredJson acc code = JValue.obj [] := by
        unfold readStoredJson
        rw [h1]
      rw [h2, getNestedValue_empty] at hc
      simp at hc
    rw [if_pos hmem]

/-- A fold over codes that already have files does not change the file list. -/
theorem addKey_foldl_fst (key sourceLang value : String) :
    ∀ (codes : List String) (acc : FileStore), (∀ c ∈ codes, c ∈ acc.map Prod.fst) →
    (codes.foldl (addKeyStep key sourceLang value) acc).map Prod.fst = acc.map Prod.fst
  | [], _, _ => rfl
  | code :: rest, acc, h => by
    rw [List.foldl_cons]
    have hfst : (addKeyStep key sourceLang value acc code).map Prod.fst
        = acc.map Prod.fst := by
      rw [addKeyStep_fst, if_pos (h code (by simp))]
    rw [addKey_foldl_fst key sourceLang value rest _
      (fun c hc => by rw [hfst]; exact h c (by simp [hc])), hfst]

/-- `addTranslationKey` creates no file other than, possibly, the source
language file: the resulting file list is exactly the target-code list. -/
theorem addTranslationKey_fst (fs : FileStore) (key sourceLang value : String) :
    (addTranslationKey fs key sourceLang value).map Prod.fst
      = addKeyTargetCodes fs sourceLang := by
  unfold addTranslationKey addKeyTargetCodes
  by_cases hs : sourceLang ∈ fs.map Prod.fst
  · rw [if_pos hs]
    exact addKey_foldl_fst key sourceLang value _ fs (fun c hc => hc)
  · rw [if_neg hs, List.foldl_append]
    have hinner : ((fs.map Prod.fst).foldl (addKeyStep key sourceLang value) fs).map Prod.fst
        = fs.map Prod.fst :=
      addKey_foldl_fst key sourceLang value _ fs (fun c hc => hc)
    rw [List.foldl_cons, List.foldl_nil, addKeyStep_fst, hinner, if_neg hs]

/-- A fold whose every code already holds the key is the identity. -/
theorem addKey_foldl_id (key sourceLang value : String) :
    ∀ (codes : List String) (acc : FileStore),
    (∀ c ∈ codes, (getNestedValue (readStoredJson acc c) key).isNone = false) →
    codes.foldl (addKeyStep key sourceLang value) acc = acc
  | [], _, _ => rfl
  | code :: rest, acc, h => by
    have hstep : addKeyStep key sourceLang value acc code = acc := by
      unfold addKeyStep
      rw [if_neg (by rw [h code (by simp)]; exact Bool.false_ne_true)]
    rw [List.foldl_cons, hstep,
      addKey_foldl_id key sourceLang value rest acc (fun c hc => h c (by simp [hc]))]

/-- The source language is always among the target codes. -/
theorem mem_addKeyTargetCodes_src (fs : FileStore) (sourceLang : String) :
    sourceLang ∈ addKeyTargetCodes fs sourceLang := by
  unfold addKeyTargetCodes
  by_cases hs : sourceLang ∈ fs.map Prod.fst
  · rw [if_pos hs]
    exact hs
  · rw [if_neg hs]
    simp

/-- The target codes inherit freedom from duplicates. -/
theorem addKeyTargetCodes_nodup (fs : FileStore) (sourceLang : String)
    (hnd : (fs.map Prod.fst).Nodup) : (addKeyTargetCodes fs sourceLang).Nodup := by
  unfold addKeyTargetCodes
  by_cases hs : sourceLang ∈ fs.map Prod.fst
  · rw [if_pos hs]
    exact hnd
  · rw [if_neg hs]
    simp [List.nodup_append, hnd, hs]

/-- When the source already has a file, the target codes are just the file
names. -/
theorem addKeyTargetCodes_eq_self (fs : FileStore) (sourceLang : String)
    (h : sourceLang ∈ fs.map Prod.fst) :
    addKeyTargetCodes fs sourceLang = fs.map Prod.fst := by
  unfold addKeyTargetCodes
  rw [if_pos h]

/-- C4: `addTranslationKey` writes the key into each existing language file
(plus the source file when absent) exactly when that file does not already
hold a value at the key's dot-path, seeding the source language with the
given value and every other language with the empty string
(`addKeyFileResult`); it creates no file beyond the target codes; and a
second call for the same key — with any other value — changes nothing. On a
store holding only an empty `en.json`, adding `x.y`/`Hi` yields exactly
`{x:{y:"Hi"}}` in `en.json` and no new file. -/
theorem addTranslationKey_spec :
    (addTranslationKey [("en", JValue.obj [])] "x.y" "en" "Hi"
      = [("en", JValue.obj [("x", JValue.obj [("y", JValue.str "Hi")])])]) ∧
    (∀ (fs : FileStore) (key sourceLang value : String),
        (fs.map Prod.fst).Nodup →
        (∀ kv ∈ fs, ∃ gs, kv.2 = JValue.obj gs) →
        (∀ code ∈ addKeyTargetCodes fs sourceLang,
            readStoredJson (addTranslationKey fs key sourceLang value) code
              = addKeyFileResult fs key sourceLang value code) ∧
        (addTranslationKey fs key sourceLang value).map Prod.fst
          = addKeyTargetCodes fs sourceLang) ∧
    (∀ (fs : FileStore) (key sourceLang value value2 : String),
        (fs.map Prod.fst).Nodup →
        (∀ kv ∈ fs, ∃ gs, kv.2 = JValue.obj gs) →
        addTranslationKey (addTranslationKey fs key sourceLang value) key sourceLang value2
          = addTranslationKey fs key sourceLang value) := by
  have hchar : ∀ (fs : FileStore) (key sourceLang value : String),
      (fs.map Prod.fst).Nodup →
      (∀ kv ∈ fs, ∃ gs, kv.2 = JValue.obj gs) →
      ∀ code ∈ addKeyTargetCodes fs sourceLang,
        readStoredJson (addTranslationKey fs key sourceLang value) code
          = addKeyFileResult fs key sourceLang value code := by
    intro fs key sourceLang value hnd hobj code hc
    exact addKey_foldl_char key sourceLang value _ fs
      (addKeyTargetCodes_nodup fs sourceLang hnd) hobj code hc
  refine ⟨rfl, fun fs key sourceLang value hnd hobj =>
    ⟨hchar fs key sourceLang value hnd hobj, addTranslationKey_fst fs key sourceLang value⟩,
    fun fs key sourceLang value value2 hnd hobj => ?_⟩
  have hfst := addTranslationKey_fst fs key sourceLang value
  have htc2 : addKeyTargetCodes (addTranslationKey fs key sourceLang value) sourceLang
      = (addTranslationKey fs key sourceLang value).map Prod.fst :=
    addKeyTargetCodes_eq_self _ _ (by rw [hfst]; exact mem_addKeyTargetCodes_src fs sourceLang)
  have hfull : ∀ c ∈ (addTranslationKey fs key sourceLang value).map Prod.fst,
      (getNestedValue
        (readStoredJson (addTranslationKey fs key sourceLang value) c) key).isNone
        = false := by
    intro c hc
    rw [hfst] at hc
    rw [hchar fs key sourceLang value hnd hobj c hc]
    unfold addKeyFileResult
    by_cases hcond : (getNestedValue (readStoredJson fs c) key).isNone = true
    · rw [if_pos hcond]
      obtain ⟨gs, hgs⟩ := readStoredJson_obj fs c hobj
      rw [setNestedValue, hgs, getNestedValue,
        getParts_setParts_self (splitDot key) gs _ (splitDot_ne_nil key)]
      rfl
    · rw [if_neg hcond]
      exact Bool.not_eq_true _ |>.mp hcond
  show (addKeyTargetCodes (addTranslationKey fs key sourceLang value) sourceLang).foldl
      (addKeyStep key sourceLang value2) (addTranslationKey fs key sourceLang value)
    = addTranslationKey fs key sourceLang value
  rw [htc2]
  exact addKey_foldl_id key sourceLang value2 _ _ hfull

/-- Witness for C4: adding the same key twice with a different value leaves
the single-file store exactly as the first call built it. -/
theorem addTranslationKey_spec_witness :
    addTranslationKey (addTranslationKey [("en", JValue.obj [])] "x.y" "en" "Hi")
        "x.y" "en" "Bye"
      = addTranslationKey [("en", JValue.obj [])] "x.y" "en" "Hi" :=
  addTranslationKey_spec.2.2 [("en", JValue.obj [])] "x.y" "en" "Hi" "Bye"
    (by decide)
    (by
      intro kv hkv
      rw [List.mem_singleton] at hkv
      exact ⟨[], by rw [hkv]⟩)

/-- Looking up a present key gives a membership witness. -/
theorem aget_mem {α : Type} (l : List (String × α)) (k : String) (v : α)
    (h : aget k l = some v) : k ∈ l.map Prod.fst := by
  induction l with
  | nil => cases h
  | cons p rest ih =>
    obtain ⟨k0, v0⟩ := p
    by_cases h0 : k0 = k
    · simp [h0]
    · rw [aget, if_neg h0] at h
      simp [ih h]

/-- A canonical value is a string leaf or a canonical object. -/
theorem canon_cases (x : JValue) (h : canonV x = true) :
    (∃ s, x = JValue.str s) ∨ (∃ gs, x = JValue.obj gs ∧ canonFields gs = true) := by
  cases x with
  | str s => exact Or.inl ⟨s, rfl⟩
  | obj gs => exact Or.inr ⟨gs, rfl, h⟩
  | arr es => cases h
  | num n => cases h
  | boolVal b => cases h
  | nullVal => cases h

/-- Field values of a canonical field list are canonical. -/
theorem canonFields_aget : ∀ (fields : List (String × JValue)) (k : String) (v : JValue),
    canonFields fields = true → aget k fields = some v → canonV v = true
  | [], _, _, _, h => by cases h
  | (k0, v0) :: rest, k, v, hc, h => by
    rw [canonFields] at hc
    simp only [Bool.and_eq_true] at hc
    by_cases h0 : k0 = k
    · rw [aget, if_pos h0] at h
      rw [← Option.some_inj.mp h]
      exact hc.1.2
    · rw [aget, if_neg h0] at h
      exact canonFields_aget rest k v hc.2 h

/-- Field names of a canonical field list are dot-free. -/
theorem canonFields_dotFree : ∀ (fields : List (String × JValue)) (kv : String × JValue),
    canonFields fields = true → kv ∈ fields → dotFreeB kv.1 = true
  | [], _, _, h => by cases h
  | (k0, v0) :: rest, kv, hc, h => by
    rw [canonFields] at hc
    simp only [Bool.and_eq_true] at hc
    rcases List.mem_cons.mp h with h | h
    · rw [h]
      exact hc.1.1.1
    · exact canonFields_dotFree rest kv hc.2 h

/-- Canonicity survives a single field write with a dot-free name and a
canonical value. -/
theorem canonFields_aset : ∀ (fields : List (String × JValue)) (p : String) (v : JValue),
    canonFields fields = true → dotFreeB p = true → canonV v = true →
    canonFields (aset fields p v) = true
  | [], p, v, _, hdf, hv => by
    show canonFields [(p, v)] = true
    simp [canonFields, hdf, hv]
  | (k0, v0) :: rest, p, v, hc, hdf, hv => by
    rw [canonFields] at hc
    simp only [Bool.and_eq_true] at hc
    by_cases h0 : k0 = p
    · rw [aset, if_pos h0, canonFields]
      simp only [Bool.and_eq_true]
      exact ⟨⟨⟨hc.1.1.1, hc.1.1.2⟩, hv⟩, hc.2⟩
    · rw [aset, if_neg h0, canonFields]
      simp only [Bool.and_eq_true]
      refine ⟨⟨⟨hc.1.1.1, ?_⟩, hc.1.2⟩, canonFields_aset rest p v hc.2 hdf hv⟩
      rw [List.all_eq_true]
      intro kv hkv
      rcases mem_aset rest p v kv hkv with h | h
      · have := List.all_eq_true.mp hc.1.1.2 kv h
        simpa using this
      · rw [h]
        simpa using fun hh => h0 hh.symm

/-- Writing a dot-free path into a canonical object keeps it canonical. -/
theorem canon_setParts : ∀ (parts : List String) (fs : List (String × JValue)) (v : String),
    canonFields fs = true → (∀ p ∈ parts, dotFreeB p = true) →
    canonV (setParts parts (JValue.obj fs) v) = true
  | [], fs, _, hc, _ => hc
  | [p], fs, v, hc, hdf => by
    show canonFields (aset fs p (JValue.str v)) = true
    exact canonFields_aset fs p (JValue.str v) hc (hdf p (by simp)) rfl
  | p :: q :: rest, fs, v, hc, hdf => by
    obtain ⟨cfs, hcfs⟩ := childForSet_isObj (JValue.obj fs) p
    have hccan : canonFields cfs = true := by
      cases ha : aget p fs with
      | none =>
        have h2 : childForSet (JValue.obj fs) p = JValue.obj [] := by
          simp [childForSet, ha]
        rw [h2] at hcfs
        cases hcfs
        rfl
      | some w =>
        have hw : canonV w = true := canonFields_aget fs p w hc ha
        cases w with
        | obj ws =>
          have h2 : childForSet (JValue.obj fs) p = JValue.obj ws := by
            simp [childForSet, ha]
          rw [h2] at hcfs
          cases hcfs
          exact hw
        | str s =>
          have h2 : childForSet (JValue.obj fs) p = JValue.obj [] := by
            simp [childForSet, ha]
          rw [h2] at hcfs
          cases hcfs
          rfl
        | arr es => cases hw
        | num n => cases hw
        | boolVal b => cases hw
        | nullVal => cases hw
    have hrec : canonV (setParts (q :: rest) (JValue.obj cfs) v) = true :=
      canon_setParts (q :: rest) cfs v hccan (fun x hx => hdf x (by simp [hx]))
    show canonFields (aset fs p (setParts (q :: rest) (childForSet (JValue.obj fs) p) v))
      = true
    rw [hcfs]
    exact canonFields_aset fs p _ hc (hdf p (by simp)) hrec

/-- The tree built by folding `setNestedValue` over entries stays a canonical
object. -/
theorem unflatten_canon : ∀ (m : List (String × String)) (fs : List (String × JValue)),
    canonFields fs = true →
    ∃ gs, m.foldl (fun t entry => setNestedValue t entry.1 entry.2) (JValue.obj fs)
      = JValue.obj gs ∧ canonFields gs = true
  | [], fs, h => ⟨fs, rfl, h⟩
  | (k, v) :: rest, fs, h => by
    obtain ⟨gs', hg'⟩ := setParts_isObj (splitDot k) fs v
    have hset : setNestedValue (JValue.obj fs) k v = JValue.obj gs' := hg'
    have hc : canonV (setParts (splitDot k) (JValue.obj fs) v) = true :=
      canon_setParts (splitDot k) fs v h (splitDot_dotFree k)
    rw [hg'] at hc
    rw [List.foldl_cons]
    rw [show setNestedValue (JValue.obj fs) (k, v).1 (k, v).2 = JValue.obj gs' from hset]
    exact unflatten_canon rest gs' hc

/-- Canonicity descends along `getParts`. -/
theorem canon_getParts : ∀ (q : List String) (t : JValue) (x : JValue),
    canonV t = true → getParts q t = some x → canonV x = true
  | [], t, x, hc, h => by
    rw [getParts] at h
    rw [← Option.some_inj.mp h]
    exact hc
  | p :: rest, t, x, hc, h => by
    cases t with
    | obj fields =>
      rw [getParts] at h
      cases ha : aget p fields with
      | none => rw [ha] at h; cases h
      | some next =>
        rw [ha] at h
        exact canon_getParts rest next x (canonFields_aget fields p next hc ha) h
    | str s => cases h
    | arr es => cases hc
    | num n => cases hc
    | boolVal b => cases hc
    | nullVal => cases hc

/-- Appending one entry folds into one `setNestedValue`. -/
theorem unflatten_append_singleton (m : List (String × String)) (e : String × String) :
    unflatten (m ++ [e]) = setNestedValue (unflatten m) e.1 e.2 := by
  unfold unflatten
  rw [List.foldl_append]
  rfl

/-- Characterisation of the tree built by `unflatten`: reading any dot-path
string leaf agrees with looking the key up in the flat map, provided the map
has duplicate-free, prefix-free keys. -/
theorem unflatten_getParts : ∀ (m : List (String × String)),
    (m.map Prod.fst).Nodup →
    (∀ k1 ∈ m.map Prod.fst, ∀ k2 ∈ m.map Prod.fst, k1 ≠ k2 →
        ¬ (splitDot k1 <+: splitDot k2)) →
    ∀ key : String, getStrAt (unflatten m) (splitDot key) = aget key m := by
  intro m
  induction m using List.reverseRecOn with
  | nil =>
    intro _ _ key
    obtain ⟨p, rest, h⟩ : ∃ p rest, splitDot key = p :: rest := by
      cases hs : splitDot key with
      | nil => exact absurd hs (splitDot_ne_nil key)
      | cons p rest => exact ⟨p, rest, rfl⟩
    show (match getParts (splitDot key) (JValue.obj []) with
      | some (JValue.str v) => some v
      | _ => none) = none
    rw [h, getParts]
    simp [aget]
  | append_singleton m e ih =>
    obtain ⟨k0, v0⟩ := e
    intro hnd hpre key
    rw [show ((m ++ [(k0, v0)]).map Prod.fst) = m.map Prod.fst ++ [k0] by simp]
      at hnd hpre
    have hnd' : (m.map Prod.fst).Nodup := (List.nodup_append.mp hnd).1
    have hk0 : k0 ∉ m.map Prod.fst := by
      intro hmem
      exact (List.nodup_append.mp hnd).2.2 hmem (by simp)
    have hpre' : ∀ k1 ∈ m.map Prod.fst, ∀ k2 ∈ m.map Prod.fst, k1 ≠ k2 →
        ¬ (splitDot k1 <+: splitDot k2) := fun k1 h1 k2 h2 =>
      hpre k1 (by simp [h1]) k2 (by simp [h2])
    obtain ⟨fs, hfs, hcan⟩ := unflatten_canon m [] rfl
    have hT : unflatten m = JValue.obj fs := hfs
    rw [unflatten_append_singleton, aget_append]
    show getStrAt (setNestedValue (unflatten m) k0 v0) (splitDot key) = _
    rw [hT]
    by_cases heq : splitDot key = splitDot k0
    · have hkey : key = k0 := splitDot_inj _ _ heq
      subst hkey
      rw [aget_eq_none m key hk0]
      have hself : getParts (splitDot key) (setParts (splitDot key) (JValue.obj fs) v0)
          = some (JValue.str v0) := getParts_setParts_self _ fs v0 (splitDot_ne_nil key)
      show (match getParts (splitDot key)
          (setParts (splitDot key) (JValue.obj fs) v0) with
        | some (JValue.str v) => some v
        | _ => none) = _
      rw [hself]
      simp [aget]
    · have hne : k0 ≠ key := fun hh => heq (by rw [hh])
      have h2 : aget key [(k0, v0)] = none := by simp [aget, hne]
      by_cases hq1 : splitDot key <+: splitDot k0
      · obtain ⟨gs, hgs⟩ :=
          getParts_setParts_strictPre (splitDot key) (splitDot k0) hq1 heq fs v0
        have hrhs1 : aget key m = none := by
          apply aget_eq_none
          intro hmem
          exact hpre key (by simp [hmem]) k0 (by simp) (fun hh => hne hh.symm) hq1
        rw [hrhs1, h2]
        show (match getParts (splitDot key)
            (setParts (splitDot k0) (JValue.obj fs) v0) with
          | some (JValue.str v) => some v
          | _ => none) = _
        rw [hgs]
        rfl
      · by_cases hq2 : splitDot k0 <+: splitDot key
        · obtain ⟨extra, hext⟩ := hq2
          have hextne : extra ≠ [] := by
            intro hh
            apply heq
            rw [← hext, hh, List.append_nil]
          obtain ⟨e1, erest, hee⟩ : ∃ e1 erest, extra = e1 :: erest := by
            cases extra with
            | nil => exact absurd rfl hextne
            | cons e1 erest => exact ⟨e1, erest, rfl⟩
          have hrhs1 : aget key m = none := by
            apply aget_eq_none
            intro hmem
            exact hpre k0 (by simp) key (by simp [hmem]) hne ⟨extra, hext⟩
          rw [hrhs1, h2]
          show (match getParts (splitDot key)
              (setParts (splitDot k0) (JValue.obj fs) v0) with
            | some (JValue.str v) => some v
            | _ => none) = _
          rw [← hext, getParts_append,
            getParts_setParts_self _ fs v0 (splitDot_ne_nil k0)]
          rw [hee]
          rfl
        · have hobj : ∀ j, j < (splitDot k0).length → ∀ x,
              getParts ((splitDot k0).take j) (JValue.obj fs) = some x →
              ∃ gs, x = JValue.obj gs := by
            intro j hj x hx
            have hcx : canonV x = true :=
              canon_getParts _ _ x (show canonV (JValue.obj fs) = true from hcan) hx
            rcases canon_cases x hcx with ⟨s, hs⟩ | ⟨gs, hgs, _⟩
            · exfalso
              rcases Nat.eq_zero_or_pos j with hj0 | hjpos
              · subst hj0
                rw [List.take_zero, getParts] at hx
                rw [hs] at hx
                cases Option.some_inj.mp hx
              · have hqne : (splitDot k0).take j ≠ [] := by
                  intro hh
                  have := congrArg List.length hh
                  simp only [List.length_take, List.length_nil] at this
                  omega
                have hqdf : ∀ p ∈ (splitDot k0).take j, dotFreeB p = true :=
                  fun p hp => splitDot_dotFree k0 p (List.take_subset j _ hp)
                have hsplit : splitDot (joinDot ((splitDot k0).take j))
                    = (splitDot k0).take j := splitDot_joinDot _ hqne hqdf
                have hstr := ih hnd' hpre' (joinDot ((splitDot k0).take j))
                rw [hsplit, hT] at hstr
                have hsome : aget (joinDot ((splitDot k0).take j)) m = some s := by
                  rw [← hstr]
                  show (match getParts ((splitDot k0).take j) (JValue.obj fs) with
                    | some (JValue.str v) => some v
                    | _ => none) = some s
                  rw [hx, hs]
                have hmem := aget_mem m _ s hsome
                have hjlen : ((splitDot k0).take j).length = j := by
                  rw [List.length_take]
                  omega
                have hnej : joinDot ((splitDot k0).take j) ≠ k0 := by
                  intro hh
                  have heq2 : (splitDot k0).take j = splitDot k0 := by
                    rw [← hsplit, hh]
                  have := congrArg List.length heq2
                  rw [hjlen] at this
                  omega
                exact hpre (joinDot ((splitDot k0).take j)) (by simp [hmem]) k0
                  (by simp) hnej (by rw [hsplit]; exact List.take_prefix j _)
            · exact ⟨gs, hgs⟩
          have hframe := getParts_setParts_frame (splitDot k0) (splitDot key)
            (JValue.obj fs) v0 hq2 hq1 hobj
          rw [h2]
          show (match getParts (splitDot key)
              (setParts (splitDot k0) (JValue.obj fs) v0) with
            | some (JValue.str v) => some v
            | _ => none) = _
          rw [hframe]
          have hih := ih hnd' hpre' key
          rw [hT] at hih
          rw [show (match getParts (splitDot key) (JValue.obj fs) with
              | some (JValue.str v) => some v
              | _ => none) = getStrAt (JValue.obj fs) (splitDot key) from rfl, hih]
          cases aget key m <;> rfl

/-- A dotted path never equals a dot-free segment. -/
theorem dotted_ne_dotFree (p k q : String) (hdf : dotFreeB p = true) :
    k ++ "." ++ q ≠ p := by
  intro h
  have hmem : '.' ∈ (k ++ "." ++ q).data := by
    rw [String.data_append, String.data_append]
    simp [show ("." : String).data = ['.'] from rfl]
  rw [h] at hmem
  exact (dotFreeB_iff p).mp hdf '.' hmem rfl

/-- Gluing with a dot is injective when the heads are dot-free. -/
theorem dotcat_inj (k k' q q' : String) (hk : dotFreeB k = true) (hk' : dotFreeB k' = true)
    (h : k ++ "." ++ q = k' ++ "." ++ q') : k = k' ∧ q = q' := by
  have h1 := splitDot_dotcat k q hk
  have h2 := splitDot_dotcat k' q' hk'
  rw [h, h2] at h1
  obtain ⟨hhead, htail⟩ := List.cons.inj h1
  exact ⟨hhead.symm, (splitDot_inj _ _ htail).symm⟩

/-- Every key emitted by `flatFields` is a field name or a dotted extension
of a field name. -/
theorem flatFields_key_shape : ∀ (fields : List (String × JValue)) (key : String),
    key ∈ (flatFields fields).map Prod.fst →
    ∃ k e, (k, e) ∈ fields ∧ (key = k ∨ ∃ q, key = k ++ "." ++ q)
  | [], _, h => by cases h
  | (k, e) :: tail, key, h => by
    have htail : key ∈ (flatFields tail).map Prod.fst →
        ∃ k' e', (k', e') ∈ (k, e) :: tail ∧ (key = k' ∨ ∃ q, key = k' ++ "." ++ q) := by
      intro hh
      obtain ⟨k', e', hmem, hsh⟩ := flatFields_key_shape tail key hh
      exact ⟨k', e', by simp [hmem], hsh⟩
    cases e with
    | str s =>
      rw [show flatFields ((k, JValue.str s) :: tail) = [(k, s)] ++ flatFields tail
          from rfl, List.map_append, List.mem_append] at h
      rcases h with h | h
      · exact ⟨k, JValue.str s, by simp, Or.inl (by simpa using h)⟩
      · exact htail h
    | obj fs =>
      rw [show flatFields ((k, JValue.obj fs) :: tail)
          = (flatV (JValue.obj fs)).map (fun p => (k ++ "." ++ p.1, p.2)) ++ flatFields tail
          from rfl, List.map_append, List.mem_append] at h
      rcases h with h | h
      · rw [List.map_map, List.mem_map] at h
        obtain ⟨q, _, hq⟩ := h
        exact ⟨k, JValue.obj fs, by simp, Or.inr ⟨q.1, hq.symm⟩⟩
      · exact htail h
    | arr es =>
      rw [show flatFields ((k, JValue.arr es) :: tail) = [] ++ flatFields tail from rfl,
        List.nil_append] at h
      exact htail h
    | num n =>
      rw [show flatFields ((k, JValue.num n) :: tail) = [] ++ flatFields tail from rfl,
        List.nil_append] at h
      exact htail h
    | boolVal b =>
      rw [show flatFields ((k, JValue.boolVal b) :: tail) = [] ++ flatFields tail from rfl,
        List.nil_append] at h
      exact htail h
    | nullVal =>
      rw [show flatFields ((k, JValue.nullVal) :: tail) = [] ++ flatFields tail from rfl,
        List.nil_append] at h
      exact htail h

/-- Lookup under an injective dotted prefix. -/
theorem aget_map_dotprefix (k w : String) (hk : dotFreeB k = true) :
    ∀ l : List (String × String),
    aget (k ++ "." ++ w) (l.map (fun q => (k ++ "." ++ q.1, q.2))) = aget w l
  | [] => rfl
  | q :: l' => by
    rw [List.map_cons]
    by_cases hq : q.1 = w
    · rw [show (k ++ "." ++ q.1, q.2) = (k ++ "." ++ w, q.2) by rw [hq]]
      rw [aget, if_pos rfl, aget, if_pos hq]
    · rw [aget, if_neg (fun hh => hq (dotcat_inj k k q.1 w hk hk hh).2), aget, if_neg hq]
      exact aget_map_dotprefix k w hk l'

/-- Reading an empty path. -/
theorem getStrAt_nil_str (s : String) : getStrAt (JValue.str s) [] = some s := rfl

/-- The one-step unfolding of `getStrAt` at an object node. -/
theorem getStrAt_cons_obj (fields : List (String × JValue)) (p : String)
    (rest : List String) :
    getStrAt (JValue.obj fields) (p :: rest)
      = match aget p fields with
        | some e => getStrAt e rest
        | none => none := by
  unfold getStrAt
  rw [getParts]
  cases aget p fields <;> rfl

/-- A dot-free key never hits a block of dotted keys. -/
theorem aget_dotted_block_none (p k : String) (hdf : dotFreeB p = true)
    (l : List (String × String)) :
    aget p (l.map (fun q => (k ++ "." ++ q.1, q.2))) = none := by
  apply aget_eq_none
  intro hmem
  rw [List.map_map, List.mem_map] at hmem
  obtain ⟨q, _, hq⟩ := hmem
  exact dotted_ne_dotFree p k q.1 hdf hq

/-- Core of the round trip (emission side): looking up a dot-free path in
the flat emission of a canonical field list mirrors a structural read. -/
theorem aget_flatFields : ∀ (n : Nat) (fields : List (String × JValue)),
    sizeOf fields ≤ n → canonFields fields = true →
    ∀ (p : String) (rest : List String), dotFreeB p = true →
    (∀ x ∈ rest, dotFreeB x = true) →
    aget (joinDot (p :: rest)) (flatFields fields)
      = match aget p fields with
        | some e => getStrAt e rest
        | none => none := by
  intro n
  induction n with
  | zero =>
    intro fields hsz
    have h1 : 0 < sizeOf fields := by cases fields <;> simp
    omega
  | succ n ihn =>
    intro fields hsz hc p rest hdfp hdfr
    cases fields with
    | nil => rfl
    | cons hd tail =>
      obtain ⟨k, e⟩ := hd
      rw [canonFields] at hc
      simp only [Bool.and_eq_true] at hc
      obtain ⟨⟨⟨hdfk, hallk⟩, hce⟩, hctail⟩ := hc
      have hsztail : sizeOf tail ≤ n := by
        simp only [List.cons.sizeOf_spec, Prod.mk.sizeOf_spec] at hsz
        omega
      by_cases hkp : k = p
      · subst hkp
        have htail : aget (joinDot (k :: rest)) (flatFields tail) = none := by
          apply aget_eq_none
          intro hmem
          obtain ⟨k', e', hmem', hsh⟩ := flatFields_key_shape tail _ hmem
          have hk'ne : k' ≠ k := by
            have := List.all_eq_true.mp hallk (k', e') hmem'
            simpa using this
          have hdfk' : dotFreeB k' = true := canonFields_dotFree tail (k', e') hctail hmem'
          cases rest with
          | nil =>
            rcases hsh with hsh | ⟨q, hsh⟩
            · exact hk'ne hsh.symm
            · exact dotted_ne_dotFree k k' q hdfk hsh.symm
          | cons r rest' =>
            rcases hsh with hsh | ⟨q, hsh⟩
            · exact dotted_ne_dotFree k' k (joinDot (r :: rest')) hdfk' hsh
            · exact hk'ne (dotcat_inj k k' (joinDot (r :: rest')) q hdfk hdfk' hsh).1.symm
        rcases canon_cases e hce with ⟨s, rfl⟩ | ⟨gs, rfl, hcgs⟩
        · rw [show flatFields ((k, JValue.str s) :: tail) = [(k, s)] ++ flatFields tail
              from rfl, aget_append, htail]
          cases rest with
          | nil => simp [joinDot, aget, getStrAt, getParts]
          | cons r rest' =>
            have hne : ¬ k = joinDot (k :: r :: rest') := by
              intro hh
              exact dotted_ne_dotFree k k (joinDot (r :: rest')) hdfk hh.symm
            rw [show aget (joinDot (k :: r :: rest')) [(k, s)] = none from by
              rw [aget, if_neg hne, aget]]
            simp [aget, getStrAt, getParts]
        · have hszgs : sizeOf gs ≤ n := by
            simp only [List.cons.sizeOf_spec, Prod.mk.sizeOf_spec,
              JValue.obj.sizeOf_spec] at hsz
            omega
          rw [show flatFields ((k, JValue.obj gs) :: tail)
              = (flatV (JValue.obj gs)).map (fun q => (k ++ "." ++ q.1, q.2))
                ++ flatFields tail from rfl, aget_append, htail]
          cases rest with
          | nil =>
            rw [show joinDot [k] = k from rfl,
              aget_dotted_block_none k k hdfk (flatV (JValue.obj gs))]
            simp [aget, getStrAt, getParts]
          | cons r rest' =>
            rw [show joinDot (k :: r :: rest') = k ++ "." ++ joinDot (r :: rest') from rfl,
              aget_map_dotprefix k (joinDot (r :: rest')) hdfk (flatV (JValue.obj gs))]
            have hih := ihn gs hszgs hcgs r rest' (hdfr r (by simp))
              (fun x hx => hdfr x (by simp [hx]))
            rw [show flatV (JValue.obj gs) = flatFields gs from rfl, hih,
              show aget k ((k, JValue.obj gs) :: tail) = some (JValue.obj gs) from by
                simp [aget]]
            show (match aget r gs with
                | some e2 => getStrAt e2 rest'
                | none => none).orElse (fun _ => none)
              = getStrAt (JValue.obj gs) (r :: rest')
            rw [getStrAt_cons_obj]
            cases aget r gs with
            | none => rfl
            | some e2 =>
              show (getStrAt e2 rest').orElse (fun _ => none) = getStrAt e2 rest'
              cases getStrAt e2 rest' <;> rfl
      · have hKne : ∀ k0 : String, dotFreeB k0 = true → k0 ≠ p →
            ¬ k0 = joinDot (p :: rest) := by
          intro k0 hdf0 hne0 hh
          cases rest with
          | nil => exact hne0 hh
          | cons r rest' => exact dotted_ne_dotFree k0 p (joinDot (r :: rest')) hdf0 hh.symm
        have hihtail := ihn tail hsztail hctail p rest hdfp hdfr
        rcases canon_cases e hce with ⟨s, rfl⟩ | ⟨gs, rfl, hcgs⟩
        · have hbl : aget (joinDot (p :: rest)) [(k, s)] = none := by
            rw [aget, if_neg (hKne k hdfk hkp), aget]
          rw [show flatFields ((k, JValue.str s) :: tail) = [(k, s)] ++ flatFields tail
              from rfl, aget_append, hbl, hihtail,
            show aget p ((k, JValue.str s) :: tail) = aget p tail from by
              rw [aget, if_neg hkp]]
          rfl
        · have hblock : aget (joinDot (p :: rest))
              ((flatV (JValue.obj gs)).map (fun q => (k ++ "." ++ q.1, q.2))) = none := by
            apply aget_eq_none
            intro hmem
            rw [List.map_map, List.mem_map] at hmem
            obtain ⟨q, _, hq⟩ := hmem
            cases rest with
            | nil => exact dotted_ne_dotFree p k q.1 hdfp hq
            | cons r rest' =>
              exact hkp (dotcat_inj k p q.1 (joinDot (r :: rest')) hdfk hdfp hq).1
          rw [show flatFields ((k, JValue.obj gs) :: tail)
              = (flatV (JValue.obj gs)).map (fun q => (k ++ "." ++ q.1, q.2))
                ++ flatFields tail from rfl, aget_append, hblock, hihtail,
            show aget p ((k, JValue.obj gs) :: tail) = aget p tail from by
              rw [aget, if_neg hkp]]
          rfl

/-- Left-cancellation of string concatenation. -/
theorem string_append_cancel_left (a b c : String) (h : a ++ b = a ++ c) : b = c := by
  have hd := congrArg String.data h
  rw [String.data_append, String.data_append] at hd
  exact String.ext (List.append_cancel_left hd)

/-- `jKey` at the root is the identity. -/
theorem jKey_empty (k : String) : jKey "" k = k := by
  simp [jKey]

/-- `jKey` below the root glues with a dot. -/
theorem jKey_of_ne (pre k : String) (h : pre ≠ "") : jKey pre k = pre ++ "." ++ k := by
  rw [jKey, if_neg h]

/-- `jKey` distributes over a dotted suffix. -/
theorem jKey_dot (pre k q : String) : jKey pre (k ++ "." ++ q) = jKey pre k ++ "." ++ q := by
  by_cases h : pre = ""
  · subst h
    rw [jKey_empty, jKey_empty]
  · rw [jKey_of_ne _ _ h, jKey_of_ne _ _ h]
    apply String.ext
    simp [String.data_append, List.append_assoc]

/-- `jKey` with a fixed prefix is injective. -/
theorem jKey_inj (pre q q' : String) (h : jKey pre q = jKey pre q') : q = q' := by
  by_cases hp : pre = ""
  · subst hp
    rw [jKey_empty, jKey_empty] at h
    exact h
  · rw [jKey_of_ne _ _ hp, jKey_of_ne _ _ hp] at h
    exact string_append_cancel_left (pre ++ ".") q q' h

/-- `jKey` below the root is never empty. -/
theorem jKey_ne_empty (pre k : String) (hp : pre ≠ "") : jKey pre k ≠ "" := by
  rw [jKey_of_ne _ _ hp]
  intro h
  have hd := congrArg String.data h
  rw [String.data_append, String.data_append] at hd
  simp [show ("." : String).data = ['.'] from rfl] at hd

/-- Writing a fresh key into a record appends it. -/
theorem aset_fresh_append {α : Type} : ∀ (l : List (String × α)) (k : String) (v : α),
    aget k l = none → aset l k v = l ++ [(k, v)]
  | [], _, _, _ => rfl
  | (k0, v0) :: rest, k, v, h => by
    rw [aget] at h
    by_cases h0 : k0 = k
    · rw [if_pos h0] at h
      cases h
    · rw [if_neg h0] at h
      rw [aset, if_neg h0, aset_fresh_append rest k v h, List.cons_append]

/-- Keys emitted by the tail of a canonical field list differ from the head
field name and from all its dotted extensions. -/
theorem flatFields_tail_key_ne (tail : List (String × JValue)) (k : String)
    (hdfk : dotFreeB k = true) (hctail : canonFields tail = true)
    (hallk : (tail.all fun kv => decide (kv.1 ≠ k)) = true) :
    ∀ K ∈ (flatFields tail).map Prod.fst, K ≠ k ∧ ∀ q, K ≠ k ++ "." ++ q := by
  intro K hmem
  obtain ⟨k', e', hmem', hsh⟩ := flatFields_key_shape tail K hmem
  have hk'ne : k' ≠ k := by
    have := List.all_eq_true.mp hallk (k', e') hmem'
    simpa using this
  have hdfk' : dotFreeB k' = true := canonFields_dotFree tail (k', e') hctail hmem'
  constructor
  · rcases hsh with hsh | ⟨q, hsh⟩
    · rw [hsh]
      exact hk'ne
    · rw [hsh]
      exact fun hh => dotted_ne_dotFree k k' q hdfk hh
  · intro q
    rcases hsh with hsh | ⟨w, hsh⟩
    · rw [hsh]
      exact fun hh => dotted_ne_dotFree k' k q hdfk' hh.symm
    · rw [hsh]
      intro hh
      exact hk'ne (dotcat_inj k' k w q hdfk' hdfk hh).1

/-- Core of the round trip (accumulator side): on a canonical field list
whose emitted keys are fresh for the accumulator, the `flattenObject` field
loop appends exactly the spec-side emission under the `jKey` prefix. -/
theorem flattenFields_spec : ∀ (n : Nat) (fields : List (String × JValue)),
    sizeOf fields ≤ n → canonFields fields = true →
    ∀ (pre : String) (out : List (String × String)),
    (∀ q ∈ (flatFields fields).map Prod.fst, aget (jKey pre q) out = none) →
    (pre = "" → ∀ gs, ("", JValue.obj gs) ∉ fields) →
    flattenFields fields pre out
      = out ++ (flatFields fields).map (fun p => (jKey pre p.1, p.2)) := by
  intro n
  induction n with
  | zero =>
    intro fields hsz
    have h1 : 0 < sizeOf fields := by cases fields <;> simp
    omega
  | succ n ihn =>
    intro fields hsz hc pre out hfresh hroot
    cases fields with
    | nil => simp [flattenFields, flatFields]
    | cons hd tail =>
      obtain ⟨k, e⟩ := hd
      rw [canonFields] at hc
      simp only [Bool.and_eq_true] at hc
      obtain ⟨⟨⟨hdfk, hallk⟩, hce⟩, hctail⟩ := hc
      have hsztail : sizeOf tail ≤ n := by
        simp only [List.cons.sizeOf_spec, Prod.mk.sizeOf_spec] at hsz
        omega
      have htailne := flatFields_tail_key_ne tail k hdfk hctail hallk
      have hroot' : pre = "" → ∀ gs2, ("", JValue.obj gs2) ∉ tail := by
        intro hp gs2 hm
        exact hroot hp gs2 (List.mem_cons_of_mem _ hm)
      rcases canon_cases e hce with ⟨s, rfl⟩ | ⟨gs, rfl, hcgs⟩
      · have hkfresh : aget (jKey pre k) out = none := by
          apply hfresh
          rw [show flatFields ((k, JValue.str s) :: tail)
              = [(k, s)] ++ flatFields tail from rfl]
          simp
        have hstep : flattenFields ((k, JValue.str s) :: tail) pre out
            = flattenFields tail pre (aset out (jKey pre k) s) := rfl
        have hfresh' : ∀ q ∈ (flatFields tail).map Prod.fst,
            aget (jKey pre q) (out ++ [(jKey pre k, s)]) = none := by
          intro q hq
          have h1 : aget (jKey pre q) out = none := by
            apply hfresh
            rw [show flatFields ((k, JValue.str s) :: tail)
                = [(k, s)] ++ flatFields tail from rfl]
            simp [hq]
          rw [aget_append, h1]
          show aget (jKey pre q) [(jKey pre k, s)] = none
          rw [aget, if_neg (show ¬ jKey pre k = jKey pre q from
            fun hh => (htailne q hq).1 (jKey_inj pre k q hh).symm), aget]
        rw [hstep, aset_fresh_append out (jKey pre k) s hkfresh,
          ihn tail hsztail hctail pre (out ++ [(jKey pre k, s)]) hfresh' hroot',
          show flatFields ((k, JValue.str s) :: tail)
            = [(k, s)] ++ flatFields tail from rfl]
        simp [List.append_assoc]
      · have hkne : jKey pre k ≠ "" := by
          by_cases hp : pre = ""
          · subst hp
            rw [jKey_empty]
            intro hk0
            exact hroot rfl gs (by rw [← hk0]; exact List.mem_cons_self _ _)
          · exact jKey_ne_empty pre k hp
        have hstep : flattenFields ((k, JValue.obj gs) :: tail) pre out
            = flattenFields tail pre (flattenFields gs (jKey pre k) out) := rfl
        have hszgs : sizeOf gs ≤ n := by
          simp only [List.cons.sizeOf_spec, Prod.mk.sizeOf_spec,
            JValue.obj.sizeOf_spec] at hsz
          omega
        have hfreshgs : ∀ q ∈ (flatFields gs).map Prod.fst,
            aget (jKey (jKey pre k) q) out = none := by
          intro q hq
          rw [jKey_of_ne _ _ hkne, ← jKey_dot pre k q]
          apply hfresh
          rw [show flatFields ((k, JValue.obj gs) :: tail)
              = (flatV (JValue.obj gs)).map (fun p => (k ++ "." ++ p.1, p.2))
                ++ flatFields tail from rfl]
          rw [List.map_append, List.mem_append]
          left
          rw [List.map_map, List.mem_map]
          obtain ⟨pq, hpq, hq2⟩ := List.mem_map.mp hq
          exact ⟨pq, hpq, show k ++ "." ++ pq.1 = k ++ "." ++ q from by rw [hq2]⟩
        have hrootgs : jKey pre k = "" → ∀ gs2, ("", JValue.obj gs2) ∉ gs :=
          fun h => absurd h hkne
        have hfresh' : ∀ q ∈ (flatFields tail).map Prod.fst,
            aget (jKey pre q) (out ++ (flatFields gs).map
              (fun p => (jKey pre (k ++ "." ++ p.1), p.2))) = none := by
          intro q hq
          have h1 : aget (jKey pre q) out = none := by
            apply hfresh
            rw [show flatFields ((k, JValue.obj gs) :: tail)
                = (flatV (JValue.obj gs)).map (fun p => (k ++ "." ++ p.1, p.2))
                  ++ flatFields tail from rfl]
            simp [hq]
          rw [aget_append, h1]
          show aget (jKey pre q)
              ((flatFields gs).map (fun p => (jKey pre (k ++ "." ++ p.1), p.2))) = none
          apply aget_eq_none
          intro hmem
          rw [List.map_map, List.mem_map] at hmem
          obtain ⟨a, _, ha⟩ := hmem
          exact ((htailne q hq).2 a.1) (jKey_inj pre (k ++ "." ++ a.1) q ha).symm
        have hmapgs : (flatFields gs).map (fun p => (jKey (jKey pre k) p.1, p.2))
            = (flatFields gs).map (fun p => (jKey pre (k ++ "." ++ p.1), p.2)) := by
          apply List.map_congr_left
          intro a _
          rw [jKey_of_ne _ _ hkne, ← jKey_dot pre k a.1]
        rw [hstep, ihn gs hszgs hcgs (jKey pre k) out hfreshgs hrootgs, hmapgs,
          ihn tail hsztail hctail pre _ hfresh' hroot',
          show flatFields ((k, JValue.obj gs) :: tail)
            = (flatV (JValue.obj gs)).map (fun p => (k ++ "." ++ p.1, p.2))
              ++ flatFields tail from rfl,
          show flatV (JValue.obj gs) = flatFields gs from rfl]
        simp [List.map_map, List.append_assoc, jKey_dot]

/-- One `setNestedValue` step writes exactly one root field, the head path
segment. -/
theorem setParts_cons_root (p : String) (ps : List String)
    (fs : List (String × JValue)) (v : String) :
    ∃ x, setParts (p :: ps) (JValue.obj fs) v = JValue.obj (aset fs p x) := by
  cases ps with
  | nil => exact ⟨JValue.str v, rfl⟩
  | cons q rest => exact ⟨setParts (q :: rest) (childForSet (JValue.obj fs) p) v, rfl⟩

/-- Every root field name of the tree built by the `setNestedValue` fold is a
root field name of the seed or the head segment of some inserted key. -/
theorem unflatten_fold_names : ∀ (m : List (String × String))
    (fs0 gs : List (String × JValue)),
    m.foldl (fun t entry => setNestedValue t entry.1 entry.2) (JValue.obj fs0)
      = JValue.obj gs →
    ∀ name ∈ gs.map Prod.fst,
      name ∈ fs0.map Prod.fst ∨
        ∃ key ∈ m.map Prod.fst, ∃ rest, splitDot key = name :: rest := by
  intro m
  induction m with
  | nil =>
    intro fs0 gs h name hmem
    rw [List.foldl_nil] at h
    cases h
    exact Or.inl hmem
  | cons e m' ih =>
    intro fs0 gs h name hmem
    obtain ⟨ke, ve⟩ := e
    rw [List.foldl_cons] at h
    obtain ⟨p, ps, hsp⟩ : ∃ p ps, splitDot ke = p :: ps := by
      cases hs : splitDot ke with
      | nil => exact absurd hs (splitDot_ne_nil ke)
      | cons p ps => exact ⟨p, ps, rfl⟩
    obtain ⟨x, hx⟩ := setParts_cons_root p ps fs0 ve
    rw [show setNestedValue (JValue.obj fs0) (ke, ve).1 (ke, ve).2
        = JValue.obj (aset fs0 p x) from by
      show setParts (splitDot ke) (JValue.obj fs0) ve = _
      rw [hsp, hx]] at h
    rcases ih (aset fs0 p x) gs h name hmem with hn | ⟨key, hkey, rest, hrest⟩
    · rw [List.mem_map] at hn
      obtain ⟨kv, hkv, hkv1⟩ := hn
      rcases mem_aset fs0 p x kv hkv with h1 | h1
      · exact Or.inl (by rw [← hkv1]; exact List.mem_map_of_mem _ h1)
      · right
        have hnp : name = p := by rw [← hkv1, h1]
        refine ⟨ke, by simp, ps, ?_⟩
        rw [hsp, hnp]
    · exact Or.inr ⟨key, by simp [hkey], rest, hrest⟩

/-- C5: flattening is a left inverse of nesting — for a flat string-valued
map whose keys are duplicate-free, pairwise non-prefix as dot-paths, and free
of empty path segments, folding `setNestedValue` over an empty object and
then running `flattenObject` reproduces exactly the original map (as a
record: every key lookup agrees). -/
theorem flatten_unflatten_id (m : List (String × String))
    (hnd : (m.map Prod.fst).Nodup)
    (hpf : ∀ k1 ∈ m.map Prod.fst, ∀ k2 ∈ m.map Prod.fst, k1 ≠ k2 →
      ¬ (splitDot k1 <+: splitDot k2))
    (hne : ∀ key ∈ m.map Prod.fst, "" ∉ splitDot key) :
    ∀ key : String, aget key (flattenObject (unflatten m) "" []) = aget key m := by
  intro key
  obtain ⟨fs, hfs, hcfs⟩ := unflatten_canon m [] rfl
  have hufs : unflatten m = JValue.obj fs := hfs
  have hroot : ∀ e, ("", JValue.obj e) ∉ fs := by
    intro e hm
    have hn : "" ∈ fs.map Prod.fst := List.mem_map_of_mem _ hm
    rcases unflatten_fold_names m [] fs hfs "" hn with h0 | ⟨k0, hk0m, rest, hrest⟩
    · cases h0
    · exact hne k0 hk0m (by rw [hrest]; exact List.mem_cons_self _ _)
  have hmap : (flatFields fs).map (fun p => (jKey "" p.1, p.2)) = flatFields fs := by
    have hcg : ∀ a ∈ flatFields fs, (fun p => (jKey "" p.1, p.2)) a = id a := by
      intro a _
      simp [jKey_empty]
    rw [List.map_congr_left hcg, List.map_id]
  rw [hufs, show flattenObject (JValue.obj fs) "" [] = flattenFields fs "" [] from rfl,
    flattenFields_spec (sizeOf fs) fs le_rfl hcfs "" []
      (fun q _ => rfl) (fun _ gs2 => hroot gs2),
    List.nil_append, hmap]
  obtain ⟨p, rest, hsp⟩ : ∃ p rest, splitDot key = p :: rest := by
    cases hs : splitDot key with
    | nil => exact absurd hs (splitDot_ne_nil key)
    | cons p rest => exact ⟨p, rest, rfl⟩
  have hkey : joinDot (p :: rest) = key := by rw [← hsp, joinDot_splitDot]
  have hdfp : dotFreeB p = true :=
    splitDot_dotFree key p (by rw [hsp]; exact List.mem_cons_self _ _)
  have hdfr : ∀ x ∈ rest, dotFreeB x = true := fun x hx =>
    splitDot_dotFree key x (by rw [hsp]; exact List.mem_cons_of_mem _ hx)
  calc aget key (flatFields fs)
      = aget (joinDot (p :: rest)) (flatFields fs) := by rw [hkey]
    _ = match aget p fs with
        | some e => getStrAt e rest
        | none => none :=
        aget_flatFields (sizeOf fs) fs le_rfl hcfs p rest hdfp hdfr
    _ = getStrAt (JValue.obj fs) (p :: rest) := (getStrAt_cons_obj fs p rest).symm
    _ = getStrAt (unflatten m) (splitDot key) := by rw [hufs, hsp]
    _ = aget key m := unflatten_getParts m hnd hpf key

/-- C5 witness: a concrete two-entry map with a nested and a root-level key
survives the round trip. -/
theorem flatten_unflatten_id_witness :
    aget "a.b" (flattenObject (unflatten [("a.b", "x"), ("c", "y")]) "" [])
      = some "x" := by
  rw [flatten_unflatten_id [("a.b", "x"), ("c", "y")]
    (by decide) (by decide) (by decide) "a.b"]
  decide
